import Mathlib

/-!
Verification of the tarsy llm-service streaming translation and retry engine.

Shallow embedding of:
- `src/llm-service/llm/providers/tool_names.py` (tool-name codec),
- `src/llm-service/llm/providers/google_native.py` (GoogleNativeProvider),
- `src/llm-service/llm/providers/langchain_provider.py` (LangChainProvider).

Python strings are modelled as `String` (with `List Char` helpers mirroring
`str.split` / `str.replace`), JSON values as an inductive `Json` with a
rendering function standing in for `json.dumps`, `json.loads` as an abstract
parameter `jloads : String → Option Json` (`none` = `json.JSONDecodeError`),
`os.getenv` as `env : String → Option String`, and `uuid.uuid4()[:8]` as a
supply `fresh : Nat → String` indexed by a counter.  Async generators are
modelled as functions returning the list of yielded deltas together with the
terminal outcome; the upstream SDK stream of one attempt is an input (the list
of chunks delivered before the attempt ended, plus a timed-out flag).
-/

namespace LlmService

/-! ## JSON values (stand-in for Python dict/list/str/int/bool/None) -/

inductive Json where
  | null
  | bool (b : Bool)
  | num (n : Int)
  | str (s : String)
  | arr (elems : List Json)
  | obj (fields : List (String × Json))

/-- Escaping of one character inside a JSON string literal (as `json.dumps`). -/
def jsonEscapeChar (c : Char) : List Char :=
  if c = '"' then ['\\', '"']
  else if c = '\\' then ['\\', '\\']
  else [c]

def jsonEscape (s : String) : String :=
  ⟨s.data.flatMap jsonEscapeChar⟩

mutual

/-- Stand-in for `json.dumps` (Python default separators `", "` / `": "`). -/
def Json.render : Json → String
  | .null => "null"
  | .bool true => "true"
  | .bool false => "false"
  | .num n => toString n
  | .str s => "\"" ++ jsonEscape s ++ "\""
  | .arr es => "[" ++ Json.renderList es ++ "]"
  | .obj fs => "\x7b" ++ Json.renderFields fs ++ "\x7d"

def Json.renderList : List Json → String
  | [] => ""
  | [x] => x.render
  | x :: y :: xs => x.render ++ ", " ++ Json.renderList (y :: xs)

def Json.renderFields : List (String × Json) → String
  | [] => ""
  | [(k, v)] => "\"" ++ jsonEscape k ++ "\": " ++ v.render
  | (k, v) :: f :: fs =>
      "\"" ++ jsonEscape k ++ "\": " ++ v.render ++ ", " ++ Json.renderFields (f :: fs)

end

/-- Python truthiness of a JSON value (`{}`, `[]`, `""`, `0`, `False`, `None`
are falsy). -/
def Json.truthy : Json → Bool
  | .null => false
  | .bool b => b
  | .num n => n != 0
  | .str s => !s.isEmpty
  | .arr es => !es.isEmpty
  | .obj fs => !fs.isEmpty

/-! ## Uniform response deltas (proto `GenerateResponse`) -/

structure UsageInfo where
  inputTokens : Nat
  outputTokens : Nat
  totalTokens : Nat
  thinkingTokens : Nat
deriving DecidableEq

structure GroundingChunkInfo where
  uri : String
  title : String
deriving DecidableEq

structure GroundingSupportInfo where
  startIndex : Int
  endIndex : Int
  text : String
  chunkIndices : List Nat
deriving DecidableEq

structure GroundingDeltaInfo where
  webSearchQueries : List String
  groundingChunks : List GroundingChunkInfo
  groundingSupports : List GroundingSupportInfo
  searchEntryPointHtml : String
deriving DecidableEq

/-- The payload variants of proto `GenerateResponse` (`none` = a bare final
marker message that carries no payload field). -/
inductive Payload where
  | none
  | text (content : String)
  | thinking (content : String)
  | toolCall (callId : String) (name : String) (arguments : String)
  | codeExecution (code : String) (result : String)
  | grounding (g : GroundingDeltaInfo)
  | usage (u : UsageInfo)
  | error (message : String) (code : String) (retryable : Bool)
deriving DecidableEq

/-- One outbound delta: a payload plus the `is_final` flag. -/
structure GenerateResponse where
  payload : Payload
  isFinal : Bool
deriving DecidableEq

/-- Content-bearing payload kinds (text, thinking, tool_call, code_execution). -/
def Payload.isContent : Payload → Bool
  | .text _ => true
  | .thinking _ => true
  | .toolCall _ _ _ => true
  | .codeExecution _ _ => true
  | _ => false

def Payload.isUsage : Payload → Bool
  | .usage _ => true
  | _ => false

def Payload.isError : Payload → Bool
  | .error _ _ _ => true
  | _ => false

def Payload.isToolCall : Payload → Bool
  | .toolCall _ _ _ => true
  | _ => false

/-- Number of deltas carrying the final marker. -/
def countFinals (l : List GenerateResponse) : Nat :=
  (l.filter fun d => d.isFinal).length

/-- Number of error deltas on a stream. -/
def countErrors (l : List GenerateResponse) : Nat :=
  (l.filter fun d => d.payload.isError).length

/-! ## Tool-name codec (`tool_names.py`)

`str.split "."` is modelled by `splitDot`, `str.replace "." "__"` by
`encodeDots`, and `str.replace "__" "."` by `replaceUU` (Python `replace`
substitutes leftmost non-overlapping occurrences, which for a two-character
pattern is exactly the two-character scan below). -/

/-- Python `name.split(".")` on the character list. -/
def splitDot : List Char → List (List Char)
  | [] => [[]]
  | c :: rest =>
    if c = '.' then [] :: splitDot rest
    else
      match splitDot rest with
      | [] => [[c]]
      | s :: ss => (c :: s) :: ss

/-- Python `"__" in segment` (the pattern has length 2, so substring presence
is presence of two adjacent underscores). -/
def hasUU : List Char → Bool
  | [] => false
  | [_] => false
  | a :: b :: rest => (a = '_' && b = '_') || hasUU (b :: rest)

/-- Two adjacent characters `'_'` then `'.'` somewhere in the list. -/
def hasUD : List Char → Bool
  | [] => false
  | [_] => false
  | a :: b :: rest => (a = '_' && b = '.') || hasUD (b :: rest)

/-- Python `name.replace(".", "__")`. -/
def encodeDots : List Char → List Char
  | [] => []
  | c :: rest => if c = '.' then '_' :: '_' :: encodeDots rest else c :: encodeDots rest

/-- Python `name.replace("__", ".")` (leftmost, non-overlapping). -/
def replaceUU : List Char → List Char
  | [] => []
  | [c] => [c]
  | a :: b :: rest =>
    if a = '_' && b = '_' then '.' :: replaceUU rest
    else a :: replaceUU (b :: rest)

/-- `tool_name_to_api` / `GoogleNativeProvider._tool_name_to_native`
(identical code in both files): validate every dot-separated segment against
`__`, then replace dots by `__`.  `ValueError` is modelled as `.error`. -/
def tool_name_to_api (name : String) : Except String String :=
  match (splitDot name.data).find? (fun seg => hasUU seg) with
  | some seg =>
      .error ("Tool name segment '" ++ String.mk seg ++ "' in '" ++ name ++
        "' contains '__' which conflicts with the dot separator encoding. " ++
        "Rename the tool to avoid double underscores.")
  | none => .ok (String.mk (encodeDots name.data))

/-- `tool_name_from_api` / `GoogleNativeProvider._tool_name_from_native`:
replace `__` by `.`. -/
def tool_name_from_api (name : String) : String :=
  String.mk (replaceUU name.data)

/-! ## Uniform request (proto `GenerateRequest`) -/

structure ToolCallMsg where
  id : String
  name : String
  arguments : String
deriving DecidableEq

structure ConversationMessage where
  role : String
  content : String
  toolCalls : List ToolCallMsg
  toolCallId : String
  toolName : String
deriving DecidableEq

structure ToolDefinition where
  name : String
  description : String
  parametersSchema : String
deriving DecidableEq

/-- The `native_tools` map restricted to the keys the code reads
(`native_tools.get("google_search")` etc.). -/
structure NativeTools where
  googleSearch : Bool
  codeExecution : Bool
  urlContext : Bool
deriving DecidableEq

structure LLMConfig where
  provider : String
  model : String
  apiKeyEnv : String
  project : String
  location : String
  nativeTools : NativeTools
deriving DecidableEq

structure GenerateRequest where
  sessionId : String
  executionId : String
  llmConfig : LLMConfig
  messages : List ConversationMessage
  tools : List ToolDefinition
deriving DecidableEq

/-! ## Google genai request shapes (`genai_types`) -/

/-- `genai_types.Part` as built by `_convert_messages` for requests. -/
inductive GReqPart where
  | text (s : String)
  | functionCall (name : String) (args : Json)
  | functionResponse (name : String) (response : Json)

structure GContent where
  role : String
  parts : List GReqPart

structure FunctionDeclaration where
  name : String
  description : String
  parameters : Option Json

inductive GTool where
  | functionDeclarations (ds : List FunctionDeclaration)
  | googleSearch
  | codeExecution
  | urlContext

/-! ## `GoogleNativeProvider._convert_messages` -/

/-- Error string of the duplicate-system-message `ValueError`. -/
def dupSystemMsg (idx : Nat) : String :=
  "Multiple system messages provided (duplicate at index " ++ toString idx ++
    "). Only one system message is allowed."

/-- Error string of the unknown-role `ValueError` (Python `{msg.role!r}`
renders the role in single quotes). -/
def unknownRoleMsg (role : String) (idx : Nat) : String :=
  "Unrecognized message role '" ++ role ++ "' at index " ++ toString idx ++
    ". Expected one of: system, user, assistant, tool."

/-- `json.loads(tc.arguments) if tc.arguments else {}` with the
`JSONDecodeError → {}` fallback. -/
def parseArgsOrEmpty (jloads : String → Option Json) (arguments : String) : Json :=
  if arguments = "" then Json.obj []
  else (jloads arguments).getD (Json.obj [])

/-- Convert the tool calls of an assistant message to `function_call` parts;
`_tool_name_to_native` may raise (propagated as `.error`). -/
def googleAssistantParts (jloads : String → Option Json) :
    List ToolCallMsg → Except String (List GReqPart)
  | [] => .ok []
  | tc :: rest => do
    let nativeName ← tool_name_to_api tc.name
    let args := parseArgsOrEmpty jloads tc.arguments
    let tail ← googleAssistantParts jloads rest
    pure (GReqPart.functionCall nativeName args :: tail)

/-- `GoogleNativeProvider._convert_messages`, as an indexed traversal.
Returns `(system_instruction, contents)` or the `ValueError` string. -/
def googleConvertMessagesAux (jloads : String → Option Json) :
    Nat → Option String → List GContent → List ConversationMessage →
    Except String (Option String × List GContent)
  | _, sys, acc, [] => .ok (sys, acc)
  | idx, sys, acc, msg :: rest =>
    if msg.role = "system" then
      match sys with
      | some _ => .error (dupSystemMsg idx)
      | none => googleConvertMessagesAux jloads (idx + 1) (some msg.content) acc rest
    else if msg.role = "user" then
      googleConvertMessagesAux jloads (idx + 1) sys
        (acc ++ [⟨"user", [GReqPart.text msg.content]⟩]) rest
    else if msg.role = "assistant" then
      match googleAssistantParts jloads msg.toolCalls with
      | .error e => .error e
      | .ok callParts =>
        let textParts := if msg.content ≠ "" then [GReqPart.text msg.content] else []
        googleConvertMessagesAux jloads (idx + 1) sys
          (acc ++ [⟨"model", textParts ++ callParts⟩]) rest
    else if msg.role = "tool" then
      match tool_name_to_api msg.toolName with
      | .error e => .error e
      | .ok nativeName =>
        let resultData :=
          if msg.content = "" then Json.obj []
          else match jloads msg.content with
            | some j => j
            | Option.none => Json.obj [("text", Json.str msg.content)]
        googleConvertMessagesAux jloads (idx + 1) sys
          (acc ++ [⟨"user", [GReqPart.functionResponse nativeName resultData]⟩]) rest
    else
      .error (unknownRoleMsg msg.role idx)

def googleConvertMessages (jloads : String → Option Json)
    (messages : List ConversationMessage) :
    Except String (Option String × List GContent) :=
  googleConvertMessagesAux jloads 0 none [] messages

/-! ## `GoogleNativeProvider._convert_tools` -/

/-- One `FunctionDeclaration` from a proto tool definition
(`params if params else None` uses Python truthiness). -/
def googleDeclOf (jloads : String → Option Json) (tool : ToolDefinition) :
    Except String FunctionDeclaration := do
  let params :=
    if tool.parametersSchema = "" then Json.obj []
    else (jloads tool.parametersSchema).getD (Json.obj [])
  let nativeName ← tool_name_to_api tool.name
  pure ⟨nativeName, tool.description, if params.truthy then some params else none⟩

def googleDeclsOf (jloads : String → Option Json) :
    List ToolDefinition → Except String (List FunctionDeclaration)
  | [] => .ok []
  | t :: ts => do
    let d ← googleDeclOf jloads t
    let ds ← googleDeclsOf jloads ts
    pure (d :: ds)

/-- `GoogleNativeProvider._convert_tools`: MCP tools as function declarations;
native tools only when no MCP tools are present. -/
def googleConvertTools (jloads : String → Option Json)
    (tools : List ToolDefinition) (native : NativeTools) :
    Except String (Option (List GTool)) := do
  let hasMcpTools := decide (tools.length > 0)
  let resultTools ←
    if hasMcpTools then do
      let ds ← googleDeclsOf jloads tools
      pure [GTool.functionDeclarations ds]
    else
      pure []
  let resultTools :=
    if ¬hasMcpTools then
      resultTools ++
        (if native.googleSearch then [GTool.googleSearch] else []) ++
        (if native.codeExecution then [GTool.codeExecution] else []) ++
        (if native.urlContext then [GTool.urlContext] else [])
    else resultTools
  pure (if resultTools.isEmpty then none else some resultTools)

/-! ## Google genai upstream stream chunks -/

/-- `genai_types.FunctionCall` on a streamed chunk.  `args` is the argument
dict (`none`/empty both fall to the `"{}"` branch, so a plain list suffices);
`id` is carried by the SDK object but never read by the adapter. -/
structure GFunctionCall where
  name : String
  args : List (String × Json)
  id : String

/-- A part of a streamed candidate, with the attributes probed by
`_stream_with_timeout` (`thought`, `text`, `function_call`,
`executable_code.code`, `code_execution_result.output`). -/
structure GPart where
  thought : Bool
  text : Option String
  functionCall : Option GFunctionCall
  executableCode : Option (Option String)
  codeExecutionResult : Option (Option String)

/-- `usage_metadata` of a chunk (token counts may be `None`). -/
structure GUsageMeta where
  promptTokenCount : Option Nat
  candidatesTokenCount : Option Nat
  totalTokenCount : Option Nat
  thinkingTokenCount : Option Nat
deriving DecidableEq

structure GWebInfo where
  uri : Option String
  title : Option String
deriving DecidableEq

structure GGroundingChunk where
  web : Option GWebInfo
deriving DecidableEq

structure GSegment where
  startIndex : Option Int
  endIndex : Option Int
  text : Option String
deriving DecidableEq

structure GGroundingSupport where
  segment : Option GSegment
  groundingChunkIndices : List Nat
deriving DecidableEq

structure GSearchEntryPoint where
  renderedContent : Option String
deriving DecidableEq

structure GGroundingMetadata where
  webSearchQueries : List String
  groundingChunks : List GGroundingChunk
  groundingSupports : List GGroundingSupport
  searchEntryPoint : Option GSearchEntryPoint
deriving DecidableEq

/-- A streamed candidate.  `content = none` covers both a missing content
object and missing parts (`not candidate.content or not candidate.content.parts`
treats them alike); an empty parts list is likewise skipped. -/
structure GCandidate where
  groundingMetadata : Option GGroundingMetadata
  content : Option (List GPart)

/-- One chunk of the genai stream. -/
structure GChunk where
  candidates : List GCandidate
  usageMetadata : Option GUsageMeta

/-- `GoogleNativeProvider._build_grounding_delta`. -/
def buildGroundingDelta (gm : GGroundingMetadata) : GroundingDeltaInfo :=
  let queries := if gm.webSearchQueries.isEmpty then [] else gm.webSearchQueries
  let chunks := gm.groundingChunks.filterMap fun ch =>
    match ch.web with
    | some web => some ⟨web.uri.getD "", web.title.getD ""⟩
    | none => none
  let supports := gm.groundingSupports.map fun support =>
    let seg := support.segment
    { startIndex := match seg with
        | some s => (s.startIndex.getD 0)
        | none => 0
      endIndex := match seg with
        | some s => (s.endIndex.getD 0)
        | none => 0
      text := match seg with
        | some s => match s.text with
          | some t => if t ≠ "" then t else ""
          | none => ""
        | none => ""
      chunkIndices := support.groundingChunkIndices }
  let html := match gm.searchEntryPoint with
    | some sep => sep.renderedContent.getD ""
    | none => ""
  ⟨queries, chunks, supports, html⟩

/-! ## `GoogleNativeProvider._stream_with_timeout` -/

/-- The usage delta built from buffered `usage_metadata`
(`um.prompt_token_count or 0`, …). -/
def mkUsageDelta (um : GUsageMeta) : GenerateResponse :=
  ⟨.usage ⟨um.promptTokenCount.getD 0, um.candidatesTokenCount.getD 0,
           um.totalTokenCount.getD 0, um.thinkingTokenCount.getD 0⟩, false⟩

/-- Buffering of `usage_metadata`: the last one seen replaces the buffer. -/
def updateLastUsage (old : Option GenerateResponse) (um : Option GUsageMeta) :
    Option GenerateResponse :=
  match um with
  | some u => some (mkUsageDelta u)
  | none => old

/-- Python truthiness of an optional string attribute (`None` and `""` falsy). -/
def optTruthy : Option String → Bool
  | some s => !s.isEmpty
  | none => false

structure GStreamState where
  out : List GenerateResponse
  hasContent : Bool
  lastUsage : Option GenerateResponse
  lastGrounding : Option GGroundingMetadata
  freshCtr : Nat

def gInitState : GStreamState := ⟨[], false, none, none, 0⟩

/-- The argument string of an emitted tool call:
`json.dumps(dict(fc.args)) if fc.args else "{}"`. -/
def gArgsString (fc : GFunctionCall) : String :=
  if fc.args.isEmpty then "\x7b\x7d" else Json.render (Json.obj fc.args)

/-- The `for part in candidate.content.parts` body (the `if`/`elif` chain). -/
def gProcessPart (fresh : Nat → String) (st : GStreamState) (p : GPart) :
    GStreamState :=
  if p.thought then
    if optTruthy p.text then
      { st with hasContent := true,
                out := st.out ++ [⟨.thinking (p.text.getD ""), false⟩] }
    else st
  else
    match p.functionCall with
    | some fc =>
      { st with hasContent := true, freshCtr := st.freshCtr + 1,
                out := st.out ++ [⟨.toolCall (fresh st.freshCtr)
                  (tool_name_from_api fc.name) (gArgsString fc), false⟩] }
    | none =>
      match p.executableCode with
      | some code? =>
        { st with hasContent := true,
                  out := st.out ++ [⟨.codeExecution (code?.getD "") "", false⟩] }
      | none =>
        match p.codeExecutionResult with
        | some output? =>
          { st with hasContent := true,
                    out := st.out ++ [⟨.codeExecution "" (output?.getD ""), false⟩] }
        | none =>
          if optTruthy p.text then
            { st with hasContent := true,
                      out := st.out ++ [⟨.text (p.text.getD ""), false⟩] }
          else st

/-- The `if chunk.usage_metadata:` buffering step. -/
def gBufferUsage (st : GStreamState) (um : Option GUsageMeta) : GStreamState :=
  { st with lastUsage := updateLastUsage st.lastUsage um }

/-- The `if ... candidate.grounding_metadata:` capture step. -/
def gApplyGrounding (st : GStreamState) (g : Option GGroundingMetadata) :
    GStreamState :=
  match g with
  | some gm => { st with lastGrounding := some gm }
  | none => st

/-- Processing of `chunk.candidates[0]`: capture grounding, skip content-less
candidates (still buffering usage), else run the part loop then buffer usage. -/
def gProcessCandidate (fresh : Nat → String) (st : GStreamState)
    (cand : GCandidate) (um : Option GUsageMeta) : GStreamState :=
  match cand.content with
  | none => gBufferUsage (gApplyGrounding st cand.groundingMetadata) um
  | some parts =>
    if parts.isEmpty then
      gBufferUsage (gApplyGrounding st cand.groundingMetadata) um
    else
      gBufferUsage
        (parts.foldl (gProcessPart fresh) (gApplyGrounding st cand.groundingMetadata))
        um

/-- The `async for chunk in stream` body. -/
def gProcessChunk (fresh : Nat → String) (st : GStreamState) (ch : GChunk) :
    GStreamState :=
  match ch.candidates with
  | [] => gBufferUsage st ch.usageMetadata
  | cand :: _ => gProcessCandidate fresh st cand ch.usageMetadata

/-- The terminal outcome of one adapter attempt: the generator either finished,
raised `_RetryableError`, or raised another exception. -/
inductive AttemptEnd where
  | completed
  | retryableErr (msg : String)
  | fatalErr (msg : String)
deriving DecidableEq

/-- Deltas yielded during one attempt, plus how the attempt ended. -/
structure AttemptOutcome where
  deltas : List GenerateResponse
  result : AttemptEnd
deriving DecidableEq

def timeoutMsg (requestId : String) (timeoutSeconds : Nat) : String :=
  "[" ++ requestId ++ "] Generation timed out after " ++ toString timeoutSeconds ++ "s"

def emptyResponseMsg (requestId : String) : String :=
  "[" ++ requestId ++ "] Empty response from LLM (no content generated)"

/-- The state after the whole chunk loop of one attempt. -/
def gFold (fresh : Nat → String) (chunks : List GChunk) : GStreamState :=
  chunks.foldl (gProcessChunk fresh) gInitState

/-- The grounding delta emitted after content, if any was buffered. -/
def gGroundingSuffix : Option GGroundingMetadata → List GenerateResponse
  | some gm => [⟨.grounding (buildGroundingDelta gm), false⟩]
  | none => []

/-- The buffered usage delta emitted after grounding, if any. -/
def gUsageSuffix : Option GenerateResponse → List GenerateResponse
  | some u => [u]
  | none => []

/-- `GoogleNativeProvider._stream_with_timeout` on one upstream attempt:
`chunks` are the chunks delivered before the attempt ended and `timedOut`
says whether the wall-clock deadline fired (after those chunks). -/
def googleStreamRun (fresh : Nat → String) (chunks : List GChunk)
    (timedOut : Bool) (requestId : String) (timeoutSeconds : Nat) :
    AttemptOutcome :=
  if timedOut then
    ⟨(gFold fresh chunks).out, .retryableErr (timeoutMsg requestId timeoutSeconds)⟩
  else if !(gFold fresh chunks).hasContent then
    ⟨(gFold fresh chunks).out, .retryableErr (emptyResponseMsg requestId)⟩
  else
    ⟨(((gFold fresh chunks).out ++ gGroundingSuffix (gFold fresh chunks).lastGrounding)
        ++ gUsageSuffix (gFold fresh chunks).lastUsage) ++ [⟨.none, true⟩],
     .completed⟩

/-! ## The retry / partial-output guard

The `for attempt in range(MAX_RETRIES)` loop of
`GoogleNativeProvider.generate` and `LangChainProvider.generate`
(the two loops are textually identical).  `attempts i` is the outcome of
upstream attempt `i` (deltas forwarded to the caller, then how it ended);
`sleeps` records the `asyncio.sleep` calls, `attemptsStarted` the number of
upstream invocations. -/

def MAX_RETRIES : Nat := 3

def RETRY_BACKOFF_BASE : Nat := 2

structure LoopResult where
  deltas : List GenerateResponse
  sleeps : List Nat
  attemptsStarted : Nat
  succeeded : Bool
deriving DecidableEq

def partialStreamErrorMsg (chunksYielded : Nat) (err : String) : String :=
  "Stream failed after partial output (" ++ toString chunksYielded ++
    " chunks): " ++ err

def providerErrorMsg (err : String) : String :=
  "Generation failed: " ++ err

def maxRetriesMsg (lastError : String) : String :=
  "Generation failed after " ++ toString MAX_RETRIES ++ " retries: " ++ lastError

def retryLoopAux (attempts : Nat → AttemptOutcome) :
    Nat → Nat → String → LoopResult
  | _, 0, lastError =>
    ⟨[⟨.error (maxRetriesMsg lastError) "max_retries" false, true⟩], [], 0, false⟩
  | attempt, fuel + 1, _lastError =>
    let o := attempts attempt
    match o.result with
    | .completed => ⟨o.deltas, [], 1, true⟩
    | .retryableErr msg =>
      if o.deltas.length > 0 then
        ⟨o.deltas ++ [⟨.error (partialStreamErrorMsg o.deltas.length msg)
            "partial_stream_error" false, true⟩], [], 1, false⟩
      else
        let rest := retryLoopAux attempts (attempt + 1) fuel msg
        ⟨o.deltas ++ rest.deltas,
         RETRY_BACKOFF_BASE ^ attempt :: rest.sleeps,
         1 + rest.attemptsStarted, rest.succeeded⟩
    | .fatalErr msg =>
      ⟨o.deltas ++ [⟨.error (providerErrorMsg msg) "provider_error" false, true⟩],
       [], 1, false⟩

def retryLoop (attempts : Nat → AttemptOutcome) : LoopResult :=
  retryLoopAux attempts 0 MAX_RETRIES "None"

/-! ## `GoogleNativeProvider.generate` -/

/-- One upstream attempt as seen by the google adapter. -/
structure GoogleUpstreamAttempt where
  chunks : List GChunk
  timedOut : Bool

def credentialsMsg (apiKeyEnv : String) : String :=
  "Environment variable '" ++ apiKeyEnv ++ "' is not set"

def errorFinalDelta (msg code : String) : GenerateResponse :=
  ⟨.error msg code false, true⟩

/-- The attempt function the google retry loop iterates: attempt `i` runs
`_stream_with_timeout` against upstream behaviour `upstream i`. -/
def googleAttempts (fresh : Nat → String) (requestId : String)
    (upstream : Nat → GoogleUpstreamAttempt) (i : Nat) : AttemptOutcome :=
  googleStreamRun fresh (upstream i).chunks (upstream i).timedOut requestId 180

/-- `GoogleNativeProvider.generate`: client lookup, request conversion, then
the retry loop around `_stream_with_timeout`.  `env` models `os.getenv`. -/
def googleGenerate (env : String → Option String) (jloads : String → Option Json)
    (fresh : Nat → String) (requestId : String) (req : GenerateRequest)
    (upstream : Nat → GoogleUpstreamAttempt) : List GenerateResponse :=
  match env req.llmConfig.apiKeyEnv with
  | none => [errorFinalDelta (credentialsMsg req.llmConfig.apiKeyEnv) "credentials"]
  | some key =>
    if key = "" then
      [errorFinalDelta (credentialsMsg req.llmConfig.apiKeyEnv) "credentials"]
    else
      match googleConvertMessages jloads req.messages with
      | .error e => [errorFinalDelta e "invalid_request"]
      | .ok _ =>
        match googleConvertTools jloads req.tools req.llmConfig.nativeTools with
        | .error e => [errorFinalDelta e "invalid_request"]
        | .ok _ =>
          (retryLoop (googleAttempts fresh requestId upstream)).deltas

/-! ## LangChain message shapes -/

structure LCToolCallSpec where
  id : String
  name : String
  args : Json

/-- LangChain message objects built by `LangChainProvider._convert_messages`. -/
inductive LCMessage where
  | system (content : String)
  | human (content : String)
  | ai (content : String) (toolCalls : List LCToolCallSpec)
  | tool (content : String) (toolCallId : String) (name : String)

/-- Tool-call dicts of an assistant message (`tool_name_to_api` may raise). -/
def lcToolCallsOf (jloads : String → Option Json) :
    List ToolCallMsg → Except String (List LCToolCallSpec)
  | [] => .ok []
  | tc :: rest => do
    let apiName ← tool_name_to_api tc.name
    let args := parseArgsOrEmpty jloads tc.arguments
    let tail ← lcToolCallsOf jloads rest
    pure (⟨tc.id, apiName, args⟩ :: tail)

/-- `LangChainProvider._convert_messages`.  Note: unlike the google mapper it
performs no duplicate-system check. -/
def lcConvertMessagesAux (jloads : String → Option Json) :
    Nat → List LCMessage → List ConversationMessage →
    Except String (List LCMessage)
  | _, acc, [] => .ok acc
  | idx, acc, msg :: rest =>
    if msg.role = "system" then
      lcConvertMessagesAux jloads (idx + 1) (acc ++ [.system msg.content]) rest
    else if msg.role = "user" then
      lcConvertMessagesAux jloads (idx + 1) (acc ++ [.human msg.content]) rest
    else if msg.role = "assistant" then
      match lcToolCallsOf jloads msg.toolCalls with
      | .error e => .error e
      | .ok toolCalls =>
        lcConvertMessagesAux jloads (idx + 1)
          (acc ++ [.ai msg.content toolCalls]) rest
    else if msg.role = "tool" then
      match (if msg.toolName ≠ "" then tool_name_to_api msg.toolName else .ok "") with
      | .error e => .error e
      | .ok apiName =>
        lcConvertMessagesAux jloads (idx + 1)
          (acc ++ [.tool msg.content msg.toolCallId apiName]) rest
    else
      .error (unknownRoleMsg msg.role idx)

def lcConvertMessages (jloads : String → Option Json)
    (messages : List ConversationMessage) : Except String (List LCMessage) :=
  lcConvertMessagesAux jloads 0 [] messages

/-! ## `LangChainProvider._create_chat_model` (validation only)

Only the validation behaviour is modelled: the provider-enum check and the
`_require_api_key` check (which the `vertexai` branches never perform).
The constructed SDK object itself has no bearing on the outbound stream,
whose chunks are an input of the model. -/

def lcSupportedProviders : List String :=
  ["openai", "anthropic", "xai", "google", "vertexai"]

inductive LCCreateErr where
  | unsupportedProvider (msg : String)
  | missingKey (msg : String)
deriving DecidableEq

def unsupportedProviderMsg (provider : String) : String :=
  "Unsupported provider '" ++ provider ++
    "'. Supported: openai, anthropic, xai, google, vertexai."

def missingKeyMsg (apiKeyEnv provider : String) : String :=
  "Environment variable '" ++ apiKeyEnv ++ "' is not set (required for provider '"
    ++ provider ++ "')"

def lcCreateChatModel (env : String → Option String) (config : LLMConfig) :
    Except LCCreateErr Unit :=
  if config.provider ∉ lcSupportedProviders then
    .error (.unsupportedProvider (unsupportedProviderMsg config.provider))
  else
    let apiKey := if config.apiKeyEnv ≠ "" then env config.apiKeyEnv else none
    if config.provider = "vertexai" then .ok ()
    else
      match apiKey with
      | some key => if key = "" then
          .error (.missingKey (missingKeyMsg config.apiKeyEnv config.provider))
        else .ok ()
      | none => .error (.missingKey (missingKeyMsg config.apiKeyEnv config.provider))

/-! ## LangChain upstream stream chunks -/

/-- A `content_blocks` entry (a dict with a `type` key; non-dict entries and
unknown types fall to `other`).  `nonStandard` carries the wrapped value's
`thinking` text when `value["type"] == "thinking"`. -/
inductive LCBlock where
  | reasoning (reasoning : String)
  | nonStandardThinking (thinking : String)
  | nonStandardOther
  | text (text : String)
  | other
deriving DecidableEq

/-- A `chunk.content` list entry (Gemini native list format). -/
inductive LCContentPart where
  | thinking (s : String)
  | text (s : String)
  | other
deriving DecidableEq

/-- `chunk.content`: plain string or list of part dicts. -/
inductive LCContent where
  | str (s : String)
  | list (parts : List LCContentPart)
deriving DecidableEq

/-- A `tool_call_chunks` entry (`.get` on each key; `index` defaults to 0). -/
structure ToolCallChunk where
  index : Option Nat
  name : Option String
  id : Option String
  args : Option String
deriving DecidableEq

/-- `chunk.usage_metadata` token counts (`.get(key, 0)` defaults handled by
the caller; absent counts are zero here). -/
structure LCUsageMeta where
  inputTokens : Nat
  outputTokens : Nat
  totalTokens : Nat
deriving DecidableEq

structure AIChunk where
  contentBlocks : List LCBlock
  reasoningSummaryChunk : Option String
  content : LCContent
  toolCallChunks : List ToolCallChunk
  usageMetadata : Option LCUsageMeta
deriving DecidableEq

/-- One chunk of `model.astream`; non-`AIMessageChunk` values are skipped. -/
inductive LCChunk where
  | ai (c : AIChunk)
  | nonAI
deriving DecidableEq

/-! ## `LangChainProvider._stream_response` -/

/-- A pending tool-call accumulator entry (`{"id": "", "name": "", "args": ""}`). -/
structure LCEntry where
  id : String
  name : String
  args : String
deriving DecidableEq

/-- Application of one `tool_call_chunks` fragment to an entry (each field is
guarded by Python truthiness via the walrus `if x := tc_chunk.get(...)`). -/
def updateEntry (e : LCEntry) (tc : ToolCallChunk) : LCEntry :=
  let e := match tc.name with
    | some n => if n ≠ "" then { e with name := n } else e
    | none => e
  let e := match tc.id with
    | some i => if i ≠ "" then { e with id := i } else e
    | none => e
  match tc.args with
  | some a => if a ≠ "" then { e with args := e.args ++ a } else e
  | none => e

/-- Update of the insertion-ordered `pending_tool_calls` dict at `idx`. -/
def updatePending (pending : List (Nat × LCEntry)) (idx : Nat)
    (tc : ToolCallChunk) : List (Nat × LCEntry) :=
  match pending with
  | [] => [(idx, updateEntry ⟨"", "", ""⟩ tc)]
  | (k, e) :: rest =>
    if k = idx then (k, updateEntry e tc) :: rest
    else (k, e) :: updatePending rest idx tc

/-- `sorted(pending_tool_calls.items())` (keys are distinct, so sorting by
key; insertion sort). -/
def insertByKey (p : Nat × LCEntry) : List (Nat × LCEntry) → List (Nat × LCEntry)
  | [] => [p]
  | q :: rest => if p.1 ≤ q.1 then p :: q :: rest else q :: insertByKey p rest

def sortByKey (l : List (Nat × LCEntry)) : List (Nat × LCEntry) :=
  l.foldr insertByKey []

structure LCStreamState where
  out : List GenerateResponse
  hasContent : Bool
  accInput : Nat
  accOutput : Nat
  accTotal : Nat
  pending : List (Nat × LCEntry)

def lcInitState : LCStreamState := ⟨[], false, 0, 0, 0, []⟩

/-- Yield one delta and set `has_content` (the shared shape of every
emitting branch of `_stream_response`'s chunk loop). -/
def lcEmitDelta (st : LCStreamState) (pl : Payload) : LCStreamState :=
  { st with hasContent := true, out := st.out ++ [⟨pl, false⟩] }

/-- The `for block in chunk.content_blocks` body; the `Bool` is
`content_handled`. -/
def lcProcessBlock (p : LCStreamState × Bool) (b : LCBlock) :
    LCStreamState × Bool :=
  match b with
  | .reasoning r => if r ≠ "" then (lcEmitDelta p.1 (.thinking r), true) else p
  | .nonStandardThinking t =>
    if t ≠ "" then (lcEmitDelta p.1 (.thinking t), true) else p
  | .nonStandardOther => p
  | .text t => if t ≠ "" then (lcEmitDelta p.1 (.text t), true) else p
  | .other => p

/-- The `for part in chunk.content` body of the list-content fallback. -/
def lcProcessContentPart (st : LCStreamState) (p : LCContentPart) :
    LCStreamState :=
  match p with
  | .thinking t => if t ≠ "" then lcEmitDelta st (.thinking t) else st
  | .text t => if t ≠ "" then lcEmitDelta st (.text t) else st
  | .other => st

/-- The OpenAI Responses-API fallback: `additional_kwargs["reasoning_summary_chunk"]`. -/
def lcApplyReasoningKwarg (r? : Option String) (sh : LCStreamState × Bool) :
    LCStreamState × Bool :=
  match r? with
  | some r => if r ≠ "" then (lcEmitDelta sh.1 (.thinking r), true) else sh
  | none => sh

/-- The two string/list `chunk.content` fallbacks, guarded by `content_handled`. -/
def lcContentFallback (content : LCContent) (sh : LCStreamState × Bool) :
    LCStreamState :=
  if ¬sh.2 then
    match content with
    | .str s => if s ≠ "" then lcEmitDelta sh.1 (.text s) else sh.1
    | .list parts =>
      if parts.isEmpty then sh.1
      else parts.foldl lcProcessContentPart sh.1
  else sh.1

/-- Content extraction of one chunk: content blocks, then the
reasoning-summary kwarg, then the content fallbacks. -/
def lcContentPhase (c : AIChunk) (st : LCStreamState) : LCStreamState :=
  lcContentFallback c.content
    (lcApplyReasoningKwarg c.reasoningSummaryChunk
      (c.contentBlocks.foldl lcProcessBlock (st, false)))

/-- Progressive tool-call accumulation of one chunk. -/
def lcToolPhase (c : AIChunk) (st : LCStreamState) : LCStreamState :=
  let newPending :=
    c.toolCallChunks.foldl (fun pd tc => updatePending pd (tc.index.getD 0) tc)
      st.pending
  { st with pending := newPending }

/-- Usage accumulation of one chunk (`+=` on each counter). -/
def lcUsagePhase (c : AIChunk) (st : LCStreamState) : LCStreamState :=
  match c.usageMetadata with
  | some um =>
    { st with accInput := st.accInput + um.inputTokens,
              accOutput := st.accOutput + um.outputTokens,
              accTotal := st.accTotal + um.totalTokens }
  | none => st

/-- The `async for chunk in model.astream(messages)` body. -/
def lcProcessChunk (st : LCStreamState) (ch : LCChunk) : LCStreamState :=
  match ch with
  | .nonAI => st
  | .ai c => lcUsagePhase c (lcToolPhase c (lcContentPhase c st))

/-- The post-loop tool-call emission (`for _idx, tc_data in sorted(...)`);
`k` numbers the `uuid.uuid4()[:8]` draws. -/
def lcEmitToolCalls (fresh : Nat → String) :
    Nat → List (Nat × LCEntry) → List GenerateResponse
  | _, [] => []
  | k, (_, e) :: rest =>
    if e.id ≠ "" then
      ⟨.toolCall e.id (tool_name_from_api e.name)
        (if e.args ≠ "" then e.args else "\x7b\x7d"), false⟩
        :: lcEmitToolCalls fresh k rest
    else
      ⟨.toolCall (fresh k) (tool_name_from_api e.name)
        (if e.args ≠ "" then e.args else "\x7b\x7d"), false⟩
        :: lcEmitToolCalls fresh (k + 1) rest

/-- The state after the whole chunk loop of one langchain attempt. -/
def lcFold (chunks : List LCChunk) : LCStreamState :=
  chunks.foldl lcProcessChunk lcInitState

/-- The accumulated usage delta, emitted only when some tokens were counted. -/
def lcUsageSuffix (accInput accOutput accTotal : Nat) : List GenerateResponse :=
  if accInput ≠ 0 || accOutput ≠ 0 then
    [⟨.usage ⟨accInput, accOutput, accTotal, 0⟩, false⟩]
  else []

/-- `LangChainProvider._stream_response` on one upstream attempt. -/
def lcStreamRun (fresh : Nat → String) (chunks : List LCChunk)
    (timedOut : Bool) (requestId : String) (timeoutSeconds : Nat) :
    AttemptOutcome :=
  if timedOut then
    ⟨(lcFold chunks).out, .retryableErr (timeoutMsg requestId timeoutSeconds)⟩
  else if !((lcFold chunks).hasContent
      || !(sortByKey (lcFold chunks).pending).isEmpty) then
    ⟨(lcFold chunks).out ++ lcEmitToolCalls fresh 0 (sortByKey (lcFold chunks).pending),
     .retryableErr (emptyResponseMsg requestId)⟩
  else
    ⟨((((lcFold chunks).out ++ lcEmitToolCalls fresh 0 (sortByKey (lcFold chunks).pending))
        ++ lcUsageSuffix (lcFold chunks).accInput (lcFold chunks).accOutput
             (lcFold chunks).accTotal) ++ [⟨.none, true⟩]),
     .completed⟩

/-! ## `LangChainProvider.generate` -/

structure LCUpstreamAttempt where
  chunks : List LCChunk
  timedOut : Bool

/-- The attempt function the langchain retry loop iterates. -/
def lcAttempts (fresh : Nat → String) (requestId : String)
    (upstream : Nat → LCUpstreamAttempt) (i : Nat) : AttemptOutcome :=
  lcStreamRun fresh (upstream i).chunks (upstream i).timedOut requestId 180

/-- One entry of the `langchain_tools` list built by
`LangChainProvider._bind_tools` (the `function` dict). -/
structure LCBoundTool where
  name : String
  description : String
  parameters : Json

/-- `LangChainProvider._bind_tools`: parse each schema (`JSONDecodeError` →
`{}`) and encode each tool name — `tool_name_to_api` may raise the codec
`ValueError`, which propagates out of `_get_or_create_model`. -/
def lcBindTools (jloads : String → Option Json) :
    List ToolDefinition → Except String (List LCBoundTool)
  | [] => .ok []
  | t :: ts => do
    let schema :=
      if t.parametersSchema = "" then Json.obj []
      else (jloads t.parametersSchema).getD (Json.obj [])
    let apiName ← tool_name_to_api t.name
    let rest ← lcBindTools jloads ts
    pure (⟨apiName, t.description, schema⟩ :: rest)

/-- The failures of `_get_or_create_model` as caught by `generate`'s
`except (ValueError, ImportError)` clause.  Only the missing-key message
contains `"not set"`, so it maps to code `"credentials"`; the unsupported
provider message and the codec message map to `"invalid_request"`. -/
inductive LCModelErr where
  | missingKey (msg : String)
  | unsupportedProvider (msg : String)
  | badToolName (msg : String)
deriving DecidableEq

/-- `LangChainProvider._get_or_create_model`: create (or reuse) the chat
model for the config, then — when caller tools are present — bind them via
`_bind_tools`, whose tool-name encoding may raise. -/
def lcGetOrCreateModel (env : String → Option String)
    (jloads : String → Option Json) (config : LLMConfig)
    (tools : List ToolDefinition) : Except LCModelErr Unit :=
  match lcCreateChatModel env config with
  | .error (.missingKey m) => .error (.missingKey m)
  | .error (.unsupportedProvider m) => .error (.unsupportedProvider m)
  | .ok () =>
    if tools.isEmpty then .ok ()
    else
      match lcBindTools jloads tools with
      | .error m => .error (.badToolName m)
      | .ok _ => .ok ()

/-- `LangChainProvider.generate`: model creation and tool binding
(validation), message conversion, then the retry loop around
`_stream_response`.  The error code of a creation failure is
`"credentials"` when the message contains `"not set"` (the `missingKey`
message) and `"invalid_request"` otherwise (unsupported provider, bad tool
name from `_bind_tools`). -/
def lcGenerate (env : String → Option String) (jloads : String → Option Json)
    (fresh : Nat → String) (requestId : String) (req : GenerateRequest)
    (upstream : Nat → LCUpstreamAttempt) : List GenerateResponse :=
  match lcGetOrCreateModel env jloads req.llmConfig req.tools with
  | .error (.missingKey m) => [errorFinalDelta m "credentials"]
  | .error (.unsupportedProvider m) => [errorFinalDelta m "invalid_request"]
  | .error (.badToolName m) => [errorFinalDelta m "invalid_request"]
  | .ok () =>
    match lcConvertMessages jloads req.messages with
    | .error e => [errorFinalDelta e "invalid_request"]
    | .ok _ =>
      (retryLoop (lcAttempts fresh requestId upstream)).deltas

/-! ## Specification-side observation functions

Pure functions of the upstream stream used to state properties of the
adapters (what "the last usage metadata seen", "the accumulated usage sums"
and "the fragments of tool call `i`" denote). -/

/-- Truthy projection of an optional string (`None`/`""` ↦ `none`). -/
def truthyStr : Option String → Option String
  | some s => if s = "" then none else some s
  | none => none

/-- All usage metadata of a google stream, in order. -/
def gUsageMetas (chunks : List GChunk) : List GUsageMeta :=
  chunks.filterMap (·.usageMetadata)

/-- Usage-token sums of a langchain stream (what the accumulators compute). -/
def lcUsageIn : LCChunk → Nat
  | .ai c => match c.usageMetadata with
    | some u => u.inputTokens
    | none => 0
  | .nonAI => 0

def lcUsageOut : LCChunk → Nat
  | .ai c => match c.usageMetadata with
    | some u => u.outputTokens
    | none => 0
  | .nonAI => 0

def lcUsageTotal : LCChunk → Nat
  | .ai c => match c.usageMetadata with
    | some u => u.totalTokens
    | none => 0
  | .nonAI => 0

/-- All usage metadata of a langchain stream, in order. -/
def lcUsageMetas (chunks : List LCChunk) : List LCUsageMeta :=
  chunks.filterMap fun ch =>
    match ch with
    | .ai c => c.usageMetadata
    | .nonAI => none

/-- All tool-call fragments of a langchain stream, in order. -/
def lcFragments (chunks : List LCChunk) : List ToolCallChunk :=
  chunks.flatMap fun ch =>
    match ch with
    | .ai c => c.toolCallChunks
    | .nonAI => []

/-- The fragments addressed to tool-call index `i`. -/
def fragmentsFor (chunks : List LCChunk) (i : Nat) : List ToolCallChunk :=
  (lcFragments chunks).filter fun tc => tc.index.getD 0 == i

/-- The accumulated id of a fragment list: the last non-empty `id` field. -/
def specId (fs : List ToolCallChunk) : String :=
  ((fs.filterMap fun tc => truthyStr tc.id).getLast?).getD ""

/-- The accumulated name of a fragment list: the last non-empty `name` field. -/
def specName (fs : List ToolCallChunk) : String :=
  ((fs.filterMap fun tc => truthyStr tc.name).getLast?).getD ""

/-- Concatenation of a list of strings, in order. -/
def concatStrs : List String → String
  | [] => ""
  | st :: rest => st ++ concatStrs rest

/-- The accumulated arguments of a fragment list: the concatenation of all
non-empty `args` fields, in order. -/
def specArgs (fs : List ToolCallChunk) : String :=
  concatStrs (fs.filterMap fun tc => truthyStr tc.args)

/-- First-match association lookup in the pending-tool-calls table. -/
def lookupPending : List (Nat × LCEntry) → Nat → Option LCEntry
  | [], _ => none
  | (k, e) :: rest, i => if k = i then some e else lookupPending rest i

/-- A google part that reaches the `function_call` branch of the elif chain. -/
def partEmitsFC (p : GPart) (fc : GFunctionCall) : Prop :=
  p.thought = false ∧ p.functionCall = some fc

/-- A google chunk whose processed candidate contains a function-call part. -/
def chunkEmitsFC (ch : GChunk) (fc : GFunctionCall) : Prop :=
  ∃ cand, ch.candidates.head? = some cand ∧
    ∃ parts, cand.content = some parts ∧ parts ≠ [] ∧
      ∃ p ∈ parts, partEmitsFC p fc

/-- Some chunk of the stream carries the function call `fc`. -/
def streamHasFC (chunks : List GChunk) (fc : GFunctionCall) : Prop :=
  ∃ ch ∈ chunks, chunkEmitsFC ch fc

/-- The outbound stream of a completed request ends with exactly one
final-marker delta, and the final delta's form is tied to the stream's
fate: a stream carries at most one error delta; a successful stream (no
error delta) ends with the bare final marker; a failed stream (one error
delta) ends with that error delta, non-retryable, carrying the final
marker. -/
def endsProperly (l : List GenerateResponse) : Prop :=
  countFinals l = 1 ∧
  (∃ d, l.getLast? = some d ∧ d.isFinal = true) ∧
  countErrors l ≤ 1 ∧
  (countErrors l = 0 → l.getLast? = some ⟨.none, true⟩) ∧
  (countErrors l = 1 → ∃ m c, l.getLast? = some ⟨.error m c false, true⟩)

/-- All deltas of a failed or interrupted attempt are in-stream content
deltas: no final marker, no error payload. -/
def goodAttemptP (o : AttemptOutcome) : Prop :=
  (o.result = .completed →
    ∃ pre, o.deltas = pre ++ [⟨.none, true⟩] ∧
      ∀ d ∈ pre, d.isFinal = false ∧ d.payload.isError = false) ∧
  (∀ m, o.result = .retryableErr m →
    ∀ d ∈ o.deltas, d.isFinal = false ∧ d.payload.isError = false) ∧
  (∀ m, o.result = .fatalErr m →
    ∀ d ∈ o.deltas, d.isFinal = false ∧ d.payload.isError = false)

/-! ## Concrete test data (used by counterexamples and witnesses) -/

/-- A deterministic stand-in for the `uuid.uuid4()[:8]` supply. -/
def fresh8 (n : Nat) : String :=
  if n = 0 then "aaaa0000" else "bbbb1111"

/-- A stub `json.loads` that always fails to parse. -/
def jloadsNone (_ : String) : Option Json := none

/-- S1: one google chunk with text `"Hello!"`. -/
def s1Chunk : GChunk :=
  ⟨[⟨none, some [⟨false, some "Hello!", none, none, none⟩]⟩], none⟩

/-- A google chunk carrying only usage metadata. -/
def gUsageOnlyChunk : GChunk := ⟨[], some ⟨some 1, some 2, some 3, none⟩⟩

/-- A google chunk with a complete function-call part. -/
def gFcChunk : GChunk :=
  ⟨[⟨none, some [⟨false, none,
      some ⟨"server__read", [("path", Json.str "/tmp")], "upstream-id"⟩,
      none, none⟩]⟩], none⟩

/-- S2: a google chunk with text `"Hello!"` and usage `{10, 20, 30, 5}`. -/
def gTextUsageChunk : GChunk :=
  ⟨[⟨none, some [⟨false, some "Hello!", none, none, none⟩]⟩],
   some ⟨some 10, some 20, some 30, some 5⟩⟩

/-- A langchain chunk with text content and usage `{1, 2, 3}`. -/
def lcTextUsageChunk : LCChunk := .ai ⟨[], none, .str "ok", [], some ⟨1, 2, 3⟩⟩

/-- A langchain chunk with no content and usage `{10, 20, 30}`. -/
def lcUsageOnlyChunk : LCChunk := .ai ⟨[], none, .str "", [], some ⟨10, 20, 30⟩⟩

/-- A langchain tool-call fragment with an id and args but no name. -/
def lcNoNameChunk : LCChunk :=
  .ai ⟨[], none, .str "", [⟨some 0, none, some "c1", some "\x7b\x7d"⟩], none⟩

/-- A conversation message with the given role and content only. -/
def mkMsg (role content : String) : ConversationMessage :=
  ⟨role, content, [], "", ""⟩

/-! # Lemmas: tool-name codec -/

theorem hasUU_cons_false {a : Char} {l : List Char} (h : hasUU (a :: l) = false) :
    hasUU l = false := by
  cases l with
  | nil => rfl
  | cons b t =>
    simp only [hasUU, Bool.or_eq_false_iff] at h
    exact h.2

theorem hasUD_cons_false {a : Char} {l : List Char} (h : hasUD (a :: l) = false) :
    hasUD l = false := by
  cases l with
  | nil => rfl
  | cons b t =>
    simp only [hasUD, Bool.or_eq_false_iff] at h
    exact h.2

theorem splitDot_ne_nil (l : List Char) : splitDot l ≠ [] := by
  cases l with
  | nil => simp [splitDot]
  | cons c rest =>
    simp only [splitDot]
    split
    · simp
    · cases h : splitDot rest <;> simp

/-- If every dot-separated segment is free of `__`, the whole string is. -/
theorem hasUU_of_segments (l : List Char)
    (h : ∀ seg ∈ splitDot l, hasUU seg = false) : hasUU l = false := by
  induction l with
  | nil => rfl
  | cons c rest ih =>
    by_cases hc : c = '.'
    · subst hc
      have hrest : hasUU rest = false := by
        apply ih
        intro seg hseg
        apply h
        simp [splitDot, hseg]
      cases rest with
      | nil => rfl
      | cons b t =>
        simp only [hasUU, Bool.or_eq_false_iff]
        exact ⟨by simp, hrest⟩
    · cases hs : splitDot rest with
      | nil => exact absurd hs (splitDot_ne_nil rest)
      | cons s ss =>
        have hsplit : splitDot (c :: rest) = (c :: s) :: ss := by
          simp [splitDot, hc, hs]
        have hcs : hasUU (c :: s) = false := by
          apply h
          simp [hsplit]
        have hrest : hasUU rest = false := by
          apply ih
          intro seg hseg
          rw [hs] at hseg
          rcases List.mem_cons.mp hseg with hseg | hseg
          · subst hseg
            exact hasUU_cons_false hcs
          · apply h
            simp [hsplit, hseg]
        cases rest with
        | nil => rfl
        | cons b t =>
          simp only [hasUU, Bool.or_eq_false_iff]
          refine ⟨?_, hrest⟩
          by_cases hb : b = '.'
          · subst hb
            simp
          · have hsb : ∃ s' ss', splitDot (b :: t) = (b :: s') :: ss' := by
              cases hbt : splitDot t with
              | nil => exact absurd hbt (splitDot_ne_nil t)
              | cons x xs => exact ⟨x, xs, by simp [splitDot, hb, hbt]⟩
            obtain ⟨s', ss', hsb⟩ := hsb
            rw [hsb] at hs
            obtain ⟨hs1, _⟩ := List.cons.injEq .. ▸ hs
            have : s = b :: s' := by
              cases hs
              rfl
            subst this
            simp only [hasUU, Bool.or_eq_false_iff] at hcs
            exact hcs.1

theorem replaceUU_cons_of_ne {c : Char} (hc : c ≠ '_') (l : List Char) :
    replaceUU (c :: l) = c :: replaceUU l := by
  cases l with
  | nil => rfl
  | cons b t => simp [replaceUU, hc]

/-- Core codec round-trip on characters: if the name has no `__` substring
and no `_` immediately followed by `.`, then decoding the encoding is the
identity. -/
theorem replaceUU_encodeDots (l : List Char) (h1 : hasUU l = false)
    (h2 : hasUD l = false) : replaceUU (encodeDots l) = l := by
  induction l with
  | nil => rfl
  | cons c rest ih =>
    have h1r : hasUU rest = false := hasUU_cons_false h1
    have h2r : hasUD rest = false := hasUD_cons_false h2
    by_cases hc : c = '.'
    · subst hc
      rw [show encodeDots ('.' :: rest) = '_' :: '_' :: encodeDots rest from by
        simp [encodeDots]]
      rw [show replaceUU ('_' :: '_' :: encodeDots rest) =
          '.' :: replaceUU (encodeDots rest) from by simp [replaceUU]]
      rw [ih h1r h2r]
    · rw [show encodeDots (c :: rest) = c :: encodeDots rest by simp [encodeDots, hc]]
      by_cases hu : c = '_'
      · subst hu
        cases rest with
        | nil => rfl
        | cons d t =>
          have hd1 : d ≠ '_' := by
            intro hd
            subst hd
            simp [hasUU] at h1
          have hd2 : d ≠ '.' := by
            intro hd
            subst hd
            simp [hasUD] at h2
          rw [show encodeDots (d :: t) = d :: encodeDots t by simp [encodeDots, hd2]]
          rw [show replaceUU ('_' :: d :: encodeDots t) =
              '_' :: replaceUU (d :: encodeDots t) by simp [replaceUU, hd1]]
          rw [← show encodeDots (d :: t) = d :: encodeDots t by
                simp [encodeDots, hd2]]
          rw [ih h1r h2r]
      · rw [replaceUU_cons_of_ne hu, ih h1r h2r]

theorem replaceUU_ne_nil {l : List Char} (h : l ≠ []) : replaceUU l ≠ [] := by
  match l with
  | [c] => simp [replaceUU]
  | a :: b :: rest =>
    simp only [replaceUU]
    split <;> simp

/-- `tool_name_from_api` maps non-empty names to non-empty names. -/
theorem tool_name_from_api_ne_empty {s : String} (h : s ≠ "") :
    tool_name_from_api s ≠ "" := by
  intro hcontra
  apply h
  have hdata : s.data ≠ [] := by
    intro hd
    apply h
    cases s
    simp_all
  have := replaceUU_ne_nil hdata
  unfold tool_name_from_api at hcontra
  apply_fun String.data at hcontra
  simp at hcontra
  exact absurd hcontra this

/-! # Claim C3 -/

/-- C3, counterexample.  The canonical name `"a_.b"` has no `__` in either
segment, so `tool_name_to_api` accepts it and encodes it to `"a___b"`; but
decoding `"a___b"` yields `"a._b"`, not the original name.  The claimed
round-trip `tool_name_from_api (tool_name_to_api name) = name` therefore
fails at `name = "a_.b"`. -/
theorem c3_codec_roundtrip_cex :
    (∀ seg ∈ splitDot ("a_.b" : String).data, hasUU seg = false) ∧
    tool_name_to_api "a_.b" = .ok "a___b" ∧
    tool_name_from_api "a___b" = "a._b" ∧
    ("a._b" : String) ≠ "a_.b" :=
  ⟨by decide, rfl, rfl, by decide⟩

/-- C3, amended.  For every canonical name whose dot-separated segments all
exclude `__` *and in which no `'_'` is immediately followed by `'.'`* (no
segment other than the last ends with an underscore), decoding the encoding
returns the original name; and for every name with `__` inside some segment,
`tool_name_to_api` fails with the invalid-request `ValueError` instead of
returning. -/
theorem c3_codec_roundtrip_amended (name : String)
    (h1 : ∀ seg ∈ splitDot name.data, hasUU seg = false)
    (h2 : hasUD name.data = false) :
    (tool_name_to_api name = .ok (String.mk (encodeDots name.data)) ∧
     tool_name_from_api (String.mk (encodeDots name.data)) = name) ∧
    (∀ m : String, (∃ seg ∈ splitDot m.data, hasUU seg = true) →
      ∃ e, tool_name_to_api m = .error e) := by
  constructor
  · constructor
    · unfold tool_name_to_api
      have hfind : (splitDot name.data).find? (fun seg => hasUU seg) = none := by
        apply List.find?_eq_none.mpr
        intro seg hseg
        simp [h1 seg hseg]
      rw [hfind]
    · unfold tool_name_from_api
      have : replaceUU (encodeDots name.data) = name.data :=
        replaceUU_encodeDots name.data (hasUU_of_segments name.data h1) h2
      simp only [this]
  · intro m hm
    obtain ⟨seg, hseg, hbad⟩ := hm
    unfold tool_name_to_api
    cases hfind : (splitDot m.data).find? (fun seg => hasUU seg) with
    | none =>
      have := List.find?_eq_none.mp hfind seg hseg
      simp [hbad] at this
    | some s => exact ⟨_, rfl⟩

/-- C3 witness: the amended round-trip at `"server.read"`, and rejection of
`"my__tool"`. -/
theorem c3_codec_roundtrip_witness :
    (tool_name_to_api "server.read" = .ok (String.mk (encodeDots ("server.read" : String).data)) ∧
     tool_name_from_api (String.mk (encodeDots ("server.read" : String).data)) = "server.read") ∧
    (∃ e, tool_name_to_api "my__tool" = .error e) := by
  have h := c3_codec_roundtrip_amended "server.read" (by decide) (by decide)
  exact ⟨h.1, h.2 "my__tool" (by decide)⟩

/-! # Lemmas: retry loop -/

theorem countFinals_append (a b : List GenerateResponse) :
    countFinals (a ++ b) = countFinals a + countFinals b := by
  simp [countFinals, List.filter_append]

theorem countFinals_eq_zero {l : List GenerateResponse}
    (h : ∀ d ∈ l, d.isFinal = false) : countFinals l = 0 := by
  simp only [countFinals, List.length_eq_zero]
  apply List.filter_eq_nil_iff.mpr
  intro d hd
  simp [h d hd]

theorem countErrors_append (a b : List GenerateResponse) :
    countErrors (a ++ b) = countErrors a + countErrors b := by
  simp [countErrors, List.filter_append]

theorem countErrors_eq_zero {l : List GenerateResponse}
    (h : ∀ d ∈ l, d.payload.isError = false) : countErrors l = 0 := by
  simp only [countErrors, List.length_eq_zero]
  apply List.filter_eq_nil_iff.mpr
  intro d hd
  simp [h d hd]

theorem retryLoopAux_attempts_le (attempts : Nat → AttemptOutcome) :
    ∀ (fuel a : Nat) (le : String),
      (retryLoopAux attempts a fuel le).attemptsStarted ≤ fuel := by
  intro fuel
  induction fuel with
  | zero => intro a le; simp [retryLoopAux]
  | succ f ih =>
    intro a le
    simp only [retryLoopAux]
    cases (attempts a).result with
    | completed => simp
    | retryableErr msg =>
      by_cases h : (attempts a).deltas.length > 0
      · simp [h]
      · have := ih (a + 1) msg
        simp only [h, if_false]
        omega
    | fatalErr msg => simp

/-- After `i` retryable zero-output attempts, a retryable failure with
non-empty output ends the loop with the partial-stream error. -/
theorem retryLoopAux_partial (attempts : Nat → AttemptOutcome)
    (ds : List GenerateResponse) (m : String) :
    ∀ (i a fuel : Nat) (le : String), i < fuel →
    (∀ j, j < i → ∃ mj, attempts (a + j) = ⟨[], .retryableErr mj⟩) →
    attempts (a + i) = ⟨ds, .retryableErr m⟩ → ds ≠ [] →
    retryLoopAux attempts a fuel le =
      ⟨ds ++ [⟨.error (partialStreamErrorMsg ds.length m)
          "partial_stream_error" false, true⟩],
       (List.range i).map (fun j => RETRY_BACKOFF_BASE ^ (a + j)), i + 1, false⟩ := by
  intro i
  induction i with
  | zero =>
    intro a fuel le hfuel _ hcur hne
    obtain ⟨f, rfl⟩ : ∃ f, fuel = f + 1 := ⟨fuel - 1, by omega⟩
    have ha : attempts a = ⟨ds, .retryableErr m⟩ := by simpa using hcur
    have hlen : ds.length > 0 := List.length_pos.mpr hne
    simp [retryLoopAux, ha, hlen]
  | succ i ih =>
    intro a fuel le hfuel hprev hcur hne
    obtain ⟨f, rfl⟩ : ∃ f, fuel = f + 1 := ⟨fuel - 1, by omega⟩
    obtain ⟨m0, hm0⟩ := hprev 0 (Nat.succ_pos i)
    have ha : attempts a = ⟨[], .retryableErr m0⟩ := by simpa using hm0
    have hrest := ih (a + 1) f m0 (by omega)
      (fun j hj => by
        obtain ⟨mj, hmj⟩ := hprev (j + 1) (by omega)
        exact ⟨mj, by rw [show a + 1 + j = a + (j + 1) by omega]; exact hmj⟩)
      (by rw [show a + 1 + i = a + (i + 1) by omega]; exact hcur) hne
    simp only [retryLoopAux, ha, List.length_nil, gt_iff_lt, Nat.lt_irrefl,
      if_false, hrest, List.nil_append, LoopResult.mk.injEq]
    refine ⟨trivial, ?_, by omega, trivial⟩
    rw [List.range_succ_eq_map, List.map_cons, List.map_map]
    refine congrArg₂ List.cons (by simp) ?_
    apply List.map_congr_left
    intro j _
    simp only [Function.comp_apply]
    congr 1
    omega

/-- In-bounds retryable failure after partial output, stated for `retryLoop`. -/
theorem retryLoop_partial (attempts : Nat → AttemptOutcome)
    (ds : List GenerateResponse) (m : String) (i : Nat)
    (hi : i < MAX_RETRIES)
    (hprev : ∀ j, j < i → ∃ mj, attempts j = ⟨[], .retryableErr mj⟩)
    (hcur : attempts i = ⟨ds, .retryableErr m⟩) (hne : ds ≠ []) :
    retryLoop attempts =
      ⟨ds ++ [⟨.error (partialStreamErrorMsg ds.length m)
          "partial_stream_error" false, true⟩],
       (List.range i).map (fun j => RETRY_BACKOFF_BASE ^ j), i + 1, false⟩ := by
  have := retryLoopAux_partial attempts ds m i 0 MAX_RETRIES "None" hi
    (fun j hj => by simpa using hprev j hj) (by simpa using hcur) hne
  rw [retryLoop, this]
  simp

/-- When every attempt fails retryably with zero output, the loop exhausts:
three attempts, backoff sleeps `1, 2, 4`, one `max_retries` error-final. -/
theorem retryLoop_exhausted (attempts : Nat → AttemptOutcome)
    (h : ∀ j, j < MAX_RETRIES → ∃ m, attempts j = ⟨[], .retryableErr m⟩) :
    ∃ msg, retryLoop attempts =
      ⟨[⟨.error (maxRetriesMsg msg) "max_retries" false, true⟩], [1, 2, 4], 3, false⟩ := by
  obtain ⟨m0, h0⟩ := h 0 (by decide)
  obtain ⟨m1, h1⟩ := h 1 (by decide)
  obtain ⟨m2, h2⟩ := h 2 (by decide)
  refine ⟨m2, ?_⟩
  show retryLoopAux attempts 0 3 "None" = _
  have e2 : (2 : Nat) + 1 = 3 := rfl
  have e1 : (1 : Nat) + 1 = 2 := rfl
  have e0 : (0 : Nat) + 1 = 1 := rfl
  rw [← e2, retryLoopAux, h0]
  simp only [List.length_nil, gt_iff_lt, Nat.lt_irrefl, if_false]
  rw [← e1, retryLoopAux, h1]
  simp only [List.length_nil, gt_iff_lt, Nat.lt_irrefl, if_false]
  rw [← e0, retryLoopAux, h2]
  simp only [List.length_nil, gt_iff_lt, Nat.lt_irrefl, if_false]
  rw [retryLoopAux]
  rfl

/-! # Claim C5 -/

/-- C5.  The retry guard makes at most `MAX_RETRIES = 3` upstream attempts;
when every attempt raises a retryable condition with zero deltas emitted, it
performs the exponential backoff sleeps `1, 2, 4` (base 2) and finishes by
emitting exactly one `max_retries` error delta, non-retryable, carrying the
final marker.  (The code sleeps after every failed attempt, so the `4`-second
sleep falls after the third attempt, before the final error is emitted.) -/
theorem c5_retry_budget (attempts : Nat → AttemptOutcome) :
    (retryLoop attempts).attemptsStarted ≤ MAX_RETRIES ∧
    ((∀ j, j < MAX_RETRIES → ∃ m, attempts j = ⟨[], .retryableErr m⟩) →
      ∃ msg, retryLoop attempts =
        ⟨[⟨.error (maxRetriesMsg msg) "max_retries" false, true⟩],
         [1, 2, 4], 3, false⟩) :=
  ⟨retryLoopAux_attempts_le attempts MAX_RETRIES 0 "None",
   retryLoop_exhausted attempts⟩

/-- C5 witness: three retryable empty attempts. -/
theorem c5_retry_budget_witness :
    (retryLoop (fun _ => ⟨[], .retryableErr "boom"⟩)).attemptsStarted ≤ MAX_RETRIES ∧
    ∃ msg, retryLoop (fun _ => ⟨[], .retryableErr "boom"⟩) =
      ⟨[⟨.error (maxRetriesMsg msg) "max_retries" false, true⟩],
       [1, 2, 4], 3, false⟩ := by
  have h := c5_retry_budget (fun _ => ⟨[], .retryableErr "boom"⟩)
  exact ⟨h.1, h.2 (fun j _ => ⟨"boom", rfl⟩)⟩

/-! # Lemmas: payload kind relations -/

theorem isContent_isError {pl : Payload} (h : pl.isContent = true) :
    pl.isError = false := by
  cases pl <;> simp_all [Payload.isContent, Payload.isError]

theorem isContent_not_usage {pl : Payload} (h : pl.isContent = true) :
    pl.isUsage = false := by
  cases pl <;> simp_all [Payload.isContent, Payload.isUsage]

theorem isUsage_isError {pl : Payload} (h : pl.isUsage = true) :
    pl.isError = false := by
  cases pl <;> simp_all [Payload.isUsage, Payload.isError]

theorem isToolCall_isContent {pl : Payload} (h : pl.isToolCall = true) :
    pl.isContent = true := by
  cases pl <;> simp_all [Payload.isToolCall, Payload.isContent]

/-! # Lemmas: google streaming adapter invariant -/

/-- Invariant of the google per-attempt stream state: everything yielded so
far is a non-final content delta, the `has_content` flag tracks whether
anything was yielded, and the usage buffer holds a non-final usage delta. -/
def GInv (st : GStreamState) : Prop :=
  (∀ d ∈ st.out, d.isFinal = false ∧ d.payload.isContent = true) ∧
  (st.hasContent = false → st.out = []) ∧
  (st.hasContent = true → st.out ≠ []) ∧
  (∀ u, st.lastUsage = some u → u.isFinal = false ∧ u.payload.isUsage = true)

theorem GInv_emit {st : GStreamState} (h : GInv st) {pl : Payload}
    (hpl : pl.isContent = true) (lg : Option GGroundingMetadata) (k : Nat) :
    GInv ⟨st.out ++ [⟨pl, false⟩], true, st.lastUsage, lg, k⟩ := by
  obtain ⟨h1, _, _, h4⟩ := h
  refine ⟨?_, by simp, by simp, h4⟩
  intro d hd
  rcases List.mem_append.mp hd with hd | hd
  · exact h1 d hd
  · simp only [List.mem_singleton] at hd
    subst hd
    exact ⟨rfl, hpl⟩

theorem GInv_setUsage {st : GStreamState} (h : GInv st)
    (um : Option GUsageMeta) :
    GInv ⟨st.out, st.hasContent, updateLastUsage st.lastUsage um,
          st.lastGrounding, st.freshCtr⟩ := by
  obtain ⟨h1, h2, h3, h4⟩ := h
  refine ⟨h1, h2, h3, ?_⟩
  intro u hu
  cases um with
  | none => exact h4 u hu
  | some m =>
    simp only [updateLastUsage, Option.some.injEq] at hu
    subst hu
    exact ⟨rfl, rfl⟩

theorem GInv_setGrounding {st : GStreamState} (h : GInv st)
    (g : Option GGroundingMetadata) : GInv (gApplyGrounding st g) := by
  unfold gApplyGrounding
  split
  · exact ⟨h.1, h.2.1, h.2.2.1, h.2.2.2⟩
  · exact h

theorem GInv_bufferUsage {st : GStreamState} (h : GInv st)
    (um : Option GUsageMeta) : GInv (gBufferUsage st um) :=
  GInv_setUsage h um

theorem gProcessPart_inv (fresh : Nat → String) (st : GStreamState) (p : GPart)
    (h : GInv st) : GInv (gProcessPart fresh st p) := by
  unfold gProcessPart
  split
  · split
    · apply GInv_emit h
      rfl
    · exact h
  · split
    · apply GInv_emit h
      rfl
    · split
      · apply GInv_emit h
        rfl
      · split
        · apply GInv_emit h
          rfl
        · split
          · apply GInv_emit h
            rfl
          · exact h

theorem gFoldParts_inv (fresh : Nat → String) (parts : List GPart) :
    ∀ st, GInv st → GInv (parts.foldl (gProcessPart fresh) st) := by
  induction parts with
  | nil => intro st h; exact h
  | cons p rest ih =>
    intro st h
    exact ih _ (gProcessPart_inv fresh st p h)

theorem gProcessCandidate_inv (fresh : Nat → String) (st : GStreamState)
    (cand : GCandidate) (um : Option GUsageMeta) (h : GInv st) :
    GInv (gProcessCandidate fresh st cand um) := by
  unfold gProcessCandidate
  split
  · exact GInv_bufferUsage (GInv_setGrounding h _) _
  · split
    · exact GInv_bufferUsage (GInv_setGrounding h _) _
    · exact GInv_bufferUsage (gFoldParts_inv fresh _ _ (GInv_setGrounding h _)) _

theorem gProcessChunk_inv (fresh : Nat → String) (st : GStreamState)
    (ch : GChunk) (h : GInv st) : GInv (gProcessChunk fresh st ch) := by
  unfold gProcessChunk
  split
  · exact GInv_bufferUsage h _
  · exact gProcessCandidate_inv fresh st _ _ h

theorem GInv_init : GInv gInitState := by
  refine ⟨by simp [gInitState], fun _ => rfl, by simp [gInitState], ?_⟩
  intro u hu
  simp [gInitState] at hu

theorem gFoldChunks_inv (fresh : Nat → String) (chunks : List GChunk) :
    ∀ st, GInv st → GInv (chunks.foldl (gProcessChunk fresh) st) := by
  induction chunks with
  | nil => intro st h; exact h
  | cons ch rest ih =>
    intro st h
    exact ih _ (gProcessChunk_inv fresh st ch h)

theorem gFold_inv (fresh : Nat → String) (chunks : List GChunk) :
    GInv (chunks.foldl (gProcessChunk fresh) gInitState) :=
  gFoldChunks_inv fresh chunks gInitState GInv_init

/-! # Lemmas: langchain streaming adapter invariant -/

/-- Invariant of the langchain per-attempt stream state: everything yielded
during the chunk loop is a non-final text/thinking delta, and `has_content`
tracks whether anything was yielded. -/
def LCInv (st : LCStreamState) : Prop :=
  (∀ d ∈ st.out, d.isFinal = false ∧ d.payload.isContent = true ∧
    d.payload.isToolCall = false) ∧
  (st.hasContent = false → st.out = []) ∧
  (st.hasContent = true → st.out ≠ [])

theorem LCInv_emit {st : LCStreamState} (h : LCInv st) {pl : Payload}
    (hc : pl.isContent = true) (ht : pl.isToolCall = false) :
    LCInv ⟨st.out ++ [⟨pl, false⟩], true, st.accInput, st.accOutput,
           st.accTotal, st.pending⟩ := by
  obtain ⟨h1, _, _⟩ := h
  refine ⟨?_, by simp, by simp⟩
  intro d hd
  rcases List.mem_append.mp hd with hd | hd
  · exact h1 d hd
  · simp only [List.mem_singleton] at hd
    subst hd
    exact ⟨rfl, hc, ht⟩

theorem LCInv_emitDelta {st : LCStreamState} (h : LCInv st) {pl : Payload}
    (hc : pl.isContent = true) (ht : pl.isToolCall = false) :
    LCInv (lcEmitDelta st pl) :=
  LCInv_emit h hc ht

theorem lcProcessBlock_inv (p : LCStreamState × Bool) (b : LCBlock)
    (h : LCInv p.1) : LCInv (lcProcessBlock p b).1 := by
  cases b with
  | reasoning r =>
    simp only [lcProcessBlock]
    split
    · exact LCInv_emitDelta h rfl rfl
    · exact h
  | nonStandardThinking t =>
    simp only [lcProcessBlock]
    split
    · exact LCInv_emitDelta h rfl rfl
    · exact h
  | nonStandardOther => exact h
  | text t =>
    simp only [lcProcessBlock]
    split
    · exact LCInv_emitDelta h rfl rfl
    · exact h
  | other => exact h

theorem lcBlocksFold_inv (blocks : List LCBlock) :
    ∀ p : LCStreamState × Bool, LCInv p.1 →
      LCInv (blocks.foldl lcProcessBlock p).1 := by
  induction blocks with
  | nil => intro p h; exact h
  | cons b rest ih =>
    intro p h
    exact ih _ (lcProcessBlock_inv p b h)

theorem lcApplyReasoningKwarg_inv (r? : Option String)
    (p : LCStreamState × Bool) (h : LCInv p.1) :
    LCInv (lcApplyReasoningKwarg r? p).1 := by
  unfold lcApplyReasoningKwarg
  split
  · split
    · exact LCInv_emitDelta h rfl rfl
    · exact h
  · exact h

theorem lcProcessContentPart_inv (st : LCStreamState) (p : LCContentPart)
    (h : LCInv st) : LCInv (lcProcessContentPart st p) := by
  cases p with
  | thinking t =>
    simp only [lcProcessContentPart]
    split
    · exact LCInv_emitDelta h rfl rfl
    · exact h
  | text t =>
    simp only [lcProcessContentPart]
    split
    · exact LCInv_emitDelta h rfl rfl
    · exact h
  | other => exact h

theorem lcContentPartsFold_inv (parts : List LCContentPart) :
    ∀ st, LCInv st → LCInv (parts.foldl lcProcessContentPart st) := by
  induction parts with
  | nil => intro st h; exact h
  | cons p rest ih =>
    intro st h
    exact ih _ (lcProcessContentPart_inv st p h)

theorem lcContentFallback_inv (content : LCContent) (p : LCStreamState × Bool)
    (h : LCInv p.1) : LCInv (lcContentFallback content p) := by
  unfold lcContentFallback
  split
  · split
    · split
      · exact LCInv_emitDelta h rfl rfl
      · exact h
    · split
      · exact h
      · exact lcContentPartsFold_inv _ _ h
  · exact h

theorem lcContentPhase_inv (c : AIChunk) (st : LCStreamState) (h : LCInv st) :
    LCInv (lcContentPhase c st) :=
  lcContentFallback_inv _ _
    (lcApplyReasoningKwarg_inv _ _ (lcBlocksFold_inv _ _ h))

theorem lcToolPhase_inv (c : AIChunk) (st : LCStreamState) (h : LCInv st) :
    LCInv (lcToolPhase c st) := by
  unfold lcToolPhase
  exact ⟨h.1, h.2.1, h.2.2⟩

theorem lcUsagePhase_inv (c : AIChunk) (st : LCStreamState) (h : LCInv st) :
    LCInv (lcUsagePhase c st) := by
  unfold lcUsagePhase
  split
  · exact ⟨h.1, h.2.1, h.2.2⟩
  · exact h

theorem lcProcessChunk_inv (st : LCStreamState) (ch : LCChunk) (h : LCInv st) :
    LCInv (lcProcessChunk st ch) := by
  unfold lcProcessChunk
  split
  · exact h
  · exact lcUsagePhase_inv _ _ (lcToolPhase_inv _ _ (lcContentPhase_inv _ _ h))

theorem LCInv_init : LCInv lcInitState := by
  refine ⟨by simp [lcInitState], fun _ => rfl, by simp [lcInitState]⟩

theorem lcFoldChunks_inv (chunks : List LCChunk) :
    ∀ st, LCInv st → LCInv (chunks.foldl lcProcessChunk st) := by
  induction chunks with
  | nil => intro st h; exact h
  | cons ch rest ih =>
    intro st h
    exact ih _ (lcProcessChunk_inv st ch h)

theorem lcFold_inv (chunks : List LCChunk) : LCInv (lcFold chunks) :=
  lcFoldChunks_inv chunks lcInitState LCInv_init

/-- Every delta produced by the post-loop tool-call emission is a non-final
tool-call delta. -/
theorem lcEmitToolCalls_mem (fresh : Nat → String) :
    ∀ (l : List (Nat × LCEntry)) (k : Nat) (d : GenerateResponse),
      d ∈ lcEmitToolCalls fresh k l →
      d.isFinal = false ∧ d.payload.isToolCall = true := by
  intro l
  induction l with
  | nil => intro k d hd; simp [lcEmitToolCalls] at hd
  | cons p rest ih =>
    intro k d hd
    unfold lcEmitToolCalls at hd
    split at hd <;>
      rcases List.mem_cons.mp hd with hd | hd <;>
        first
          | (subst hd; exact ⟨rfl, rfl⟩)
          | exact ih _ d hd

/-! # Lemmas: adapter attempt outcomes -/

theorem googleStreamRun_timeout_eq (fresh : Nat → String) (chunks : List GChunk)
    (rid : String) (ts : Nat) :
    googleStreamRun fresh chunks true rid ts =
      ⟨(gFold fresh chunks).out, .retryableErr (timeoutMsg rid ts)⟩ := rfl

theorem googleStreamRun_empty_eq (fresh : Nat → String) (chunks : List GChunk)
    (rid : String) (ts : Nat) (h : (gFold fresh chunks).hasContent = false) :
    googleStreamRun fresh chunks false rid ts =
      ⟨(gFold fresh chunks).out, .retryableErr (emptyResponseMsg rid)⟩ := by
  simp [googleStreamRun, h]

theorem googleStreamRun_completed_eq (fresh : Nat → String) (chunks : List GChunk)
    (rid : String) (ts : Nat) (h : (gFold fresh chunks).hasContent = true) :
    googleStreamRun fresh chunks false rid ts =
      ⟨(((gFold fresh chunks).out ++ gGroundingSuffix (gFold fresh chunks).lastGrounding)
          ++ gUsageSuffix (gFold fresh chunks).lastUsage) ++ [⟨.none, true⟩],
       .completed⟩ := by
  simp [googleStreamRun, h]

/-- Every adapter attempt has the shape the retry guard relies on. -/
theorem googleStreamRun_good (fresh : Nat → String) (chunks : List GChunk)
    (timedOut : Bool) (rid : String) (ts : Nat) :
    goodAttemptP (googleStreamRun fresh chunks timedOut rid ts) := by
  have hinv := gFold_inv fresh chunks
  have houtOk : ∀ d ∈ (gFold fresh chunks).out,
      d.isFinal = false ∧ d.payload.isError = false := by
    intro d hd
    have := hinv.1 d hd
    exact ⟨this.1, isContent_isError this.2⟩
  cases timedOut with
  | true =>
    rw [googleStreamRun_timeout_eq]
    exact ⟨fun hc => by simp at hc, fun m _ => houtOk, fun m hm => by simp at hm⟩
  | false =>
    cases hc : (gFold fresh chunks).hasContent with
    | false =>
      rw [googleStreamRun_empty_eq fresh chunks rid ts hc]
      exact ⟨fun hco => by simp at hco, fun m _ => houtOk, fun m hm => by simp at hm⟩
    | true =>
      rw [googleStreamRun_completed_eq fresh chunks rid ts hc]
      refine ⟨fun _ => ⟨_, rfl, ?_⟩, fun m hm => by simp at hm, fun m hm => by simp at hm⟩
      intro d hd
      rcases List.mem_append.mp hd with hd | hd
      · rcases List.mem_append.mp hd with hd | hd
        · exact houtOk d hd
        · cases hg : (gFold fresh chunks).lastGrounding with
          | none => rw [hg] at hd; simp [gGroundingSuffix] at hd
          | some gm =>
            rw [hg] at hd
            simp only [gGroundingSuffix, List.mem_singleton] at hd
            subst hd
            exact ⟨rfl, rfl⟩
      · cases hu : (gFold fresh chunks).lastUsage with
        | none => rw [hu] at hd; simp [gUsageSuffix] at hd
        | some u =>
          rw [hu] at hd
          simp only [gUsageSuffix, List.mem_singleton] at hd
          rw [hd]
          have := hinv.2.2.2 u hu
          exact ⟨this.1, isUsage_isError this.2⟩

theorem lcStreamRun_timeout_eq (fresh : Nat → String) (chunks : List LCChunk)
    (rid : String) (ts : Nat) :
    lcStreamRun fresh chunks true rid ts =
      ⟨(lcFold chunks).out, .retryableErr (timeoutMsg rid ts)⟩ := rfl

theorem lcStreamRun_empty_eq (fresh : Nat → String) (chunks : List LCChunk)
    (rid : String) (ts : Nat) (h1 : (lcFold chunks).hasContent = false)
    (h2 : (sortByKey (lcFold chunks).pending).isEmpty = true) :
    lcStreamRun fresh chunks false rid ts =
      ⟨(lcFold chunks).out ++ lcEmitToolCalls fresh 0 (sortByKey (lcFold chunks).pending),
       .retryableErr (emptyResponseMsg rid)⟩ := by
  simp [lcStreamRun, h1, h2]

theorem lcStreamRun_completed_eq (fresh : Nat → String) (chunks : List LCChunk)
    (rid : String) (ts : Nat)
    (h : ((lcFold chunks).hasContent || !(sortByKey (lcFold chunks).pending).isEmpty) = true) :
    lcStreamRun fresh chunks false rid ts =
      ⟨((((lcFold chunks).out ++ lcEmitToolCalls fresh 0 (sortByKey (lcFold chunks).pending))
          ++ lcUsageSuffix (lcFold chunks).accInput (lcFold chunks).accOutput
               (lcFold chunks).accTotal) ++ [⟨.none, true⟩]),
       .completed⟩ := by
  simp [lcStreamRun, h]

theorem lcStreamRun_good (fresh : Nat → String) (chunks : List LCChunk)
    (timedOut : Bool) (rid : String) (ts : Nat) :
    goodAttemptP (lcStreamRun fresh chunks timedOut rid ts) := by
  have hinv := lcFold_inv chunks
  have houtOk : ∀ d ∈ (lcFold chunks).out,
      d.isFinal = false ∧ d.payload.isError = false := by
    intro d hd
    have := hinv.1 d hd
    exact ⟨this.1, isContent_isError this.2.1⟩
  have htoolOk : ∀ d ∈ lcEmitToolCalls fresh 0 (sortByKey (lcFold chunks).pending),
      d.isFinal = false ∧ d.payload.isError = false := by
    intro d hd
    have := lcEmitToolCalls_mem fresh _ 0 d hd
    exact ⟨this.1, isContent_isError (isToolCall_isContent this.2)⟩
  cases timedOut with
  | true =>
    rw [lcStreamRun_timeout_eq]
    exact ⟨fun hc => by simp at hc, fun m _ => houtOk, fun m hm => by simp at hm⟩
  | false =>
    cases hcond : ((lcFold chunks).hasContent
        || !(sortByKey (lcFold chunks).pending).isEmpty) with
    | false =>
      have h1 : (lcFold chunks).hasContent = false := by
        cases hx : (lcFold chunks).hasContent
        · rfl
        · rw [hx] at hcond; simp at hcond
      have h2 : (sortByKey (lcFold chunks).pending).isEmpty = true := by
        cases hx : (sortByKey (lcFold chunks).pending).isEmpty
        · rw [hx] at hcond; simp [h1] at hcond
        · rfl
      rw [lcStreamRun_empty_eq fresh chunks rid ts h1 h2]
      refine ⟨fun hc => by simp at hc, fun m _ d hd => ?_, fun m hm => by simp at hm⟩
      rcases List.mem_append.mp hd with hd | hd
      · exact houtOk d hd
      · exact htoolOk d hd
    | true =>
      rw [lcStreamRun_completed_eq fresh chunks rid ts hcond]
      refine ⟨fun _ => ⟨_, rfl, ?_⟩, fun m hm => by simp at hm, fun m hm => by simp at hm⟩
      intro d hd
      rcases List.mem_append.mp hd with hd | hd
      · rcases List.mem_append.mp hd with hd | hd
        · exact houtOk d hd
        · exact htoolOk d hd
      · unfold lcUsageSuffix at hd
        by_cases hcond2 : (lcFold chunks).accInput ≠ 0 || (lcFold chunks).accOutput ≠ 0
        · rw [if_pos hcond2] at hd
          simp only [List.mem_singleton] at hd
          subst hd
          exact ⟨rfl, rfl⟩
        · rw [if_neg hcond2] at hd
          simp at hd

theorem googleAttempts_good (fresh : Nat → String) (rid : String)
    (up : Nat → GoogleUpstreamAttempt) (i : Nat) :
    goodAttemptP (googleAttempts fresh rid up i) :=
  googleStreamRun_good fresh (up i).chunks (up i).timedOut rid 180

theorem lcAttempts_good (fresh : Nat → String) (rid : String)
    (up : Nat → LCUpstreamAttempt) (i : Nat) :
    goodAttemptP (lcAttempts fresh rid up i) :=
  lcStreamRun_good fresh (up i).chunks (up i).timedOut rid 180

/-- The stream of one failed-after-partial-output attempt, followed by the
single `partial_stream_error` final delta, has exactly one final marker, one
error delta, and that error delta last.  Shared core of the two halves of C1. -/
theorem retryLoop_partial_analysis (attempts : Nat → AttemptOutcome) (i : Nat)
    (ds : List GenerateResponse) (m : String) (hi : i < MAX_RETRIES)
    (hgood : goodAttemptP (attempts i))
    (hprev : ∀ j, j < i → ∃ mj, attempts j = ⟨[], .retryableErr mj⟩)
    (hcur : attempts i = ⟨ds, .retryableErr m⟩) (hne : ds ≠ []) :
    retryLoop attempts =
      ⟨ds ++ [⟨.error (partialStreamErrorMsg ds.length m)
          "partial_stream_error" false, true⟩],
       (List.range i).map (fun j => RETRY_BACKOFF_BASE ^ j), i + 1, false⟩ ∧
    countFinals (retryLoop attempts).deltas = 1 ∧
    ((retryLoop attempts).deltas.filter fun d => d.payload.isError).length = 1 ∧
    (retryLoop attempts).deltas.getLast? =
      some ⟨.error (partialStreamErrorMsg ds.length m)
        "partial_stream_error" false, true⟩ := by
  have hloop := retryLoop_partial attempts ds m i hi hprev hcur hne
  have hds : ∀ d ∈ ds, d.isFinal = false ∧ d.payload.isError = false := by
    intro d hd
    apply hgood.2.1 m
    · rw [hcur]
    · rw [hcur]
      exact hd
  refine ⟨hloop, ?_, ?_, ?_⟩
  · rw [hloop]
    simp only [countFinals_append, countFinals_eq_zero (fun d hd => (hds d hd).1)]
    rfl
  · rw [hloop]
    simp only [List.filter_append]
    rw [List.filter_eq_nil_iff.mpr (fun d hd => by simp [(hds d hd).2])]
    rfl
  · rw [hloop]
    simp only [List.getLast?_concat]

/-! # Claim C1 -/

/-- C1.  For both adapters: if the streaming adapter raises a retryable
condition after at least one delta has been emitted (earlier attempts, if
any, having failed retryably with zero output), the retry guard starts no
further upstream attempt (`attemptsStarted = i + 1`), and the outbound
stream is exactly the already-emitted deltas followed by one error delta
with code `partial_stream_error`, `retryable = false`, carrying the final
marker, as the last delta: it is the only final marker and the only error
delta of the stream. -/
theorem c1_no_retry_after_partial_output
    (freshG freshL : Nat → String) (ridG ridL : String)
    (upG : Nat → GoogleUpstreamAttempt) (upL : Nat → LCUpstreamAttempt)
    (iG iL : Nat) (dsG dsL : List GenerateResponse) (mG mL : String)
    (hiG : iG < MAX_RETRIES)
    (hprevG : ∀ j, j < iG → ∃ mj, googleAttempts freshG ridG upG j = ⟨[], .retryableErr mj⟩)
    (hcurG : googleAttempts freshG ridG upG iG = ⟨dsG, .retryableErr mG⟩)
    (hneG : dsG ≠ [])
    (hiL : iL < MAX_RETRIES)
    (hprevL : ∀ j, j < iL → ∃ mj, lcAttempts freshL ridL upL j = ⟨[], .retryableErr mj⟩)
    (hcurL : lcAttempts freshL ridL upL iL = ⟨dsL, .retryableErr mL⟩)
    (hneL : dsL ≠ []) :
    (retryLoop (googleAttempts freshG ridG upG) =
       ⟨dsG ++ [⟨.error (partialStreamErrorMsg dsG.length mG)
           "partial_stream_error" false, true⟩],
        (List.range iG).map (fun j => RETRY_BACKOFF_BASE ^ j), iG + 1, false⟩ ∧
     countFinals (retryLoop (googleAttempts freshG ridG upG)).deltas = 1 ∧
     ((retryLoop (googleAttempts freshG ridG upG)).deltas.filter
        fun d => d.payload.isError).length = 1 ∧
     (retryLoop (googleAttempts freshG ridG upG)).deltas.getLast? =
       some ⟨.error (partialStreamErrorMsg dsG.length mG)
         "partial_stream_error" false, true⟩) ∧
    (retryLoop (lcAttempts freshL ridL upL) =
       ⟨dsL ++ [⟨.error (partialStreamErrorMsg dsL.length mL)
           "partial_stream_error" false, true⟩],
        (List.range iL).map (fun j => RETRY_BACKOFF_BASE ^ j), iL + 1, false⟩ ∧
     countFinals (retryLoop (lcAttempts freshL ridL upL)).deltas = 1 ∧
     ((retryLoop (lcAttempts freshL ridL upL)).deltas.filter
        fun d => d.payload.isError).length = 1 ∧
     (retryLoop (lcAttempts freshL ridL upL)).deltas.getLast? =
       some ⟨.error (partialStreamErrorMsg dsL.length mL)
         "partial_stream_error" false, true⟩) :=
  ⟨retryLoop_partial_analysis _ iG dsG mG hiG
      (googleAttempts_good freshG ridG upG iG) hprevG hcurG hneG,
   retryLoop_partial_analysis _ iL dsL mL hiL
      (lcAttempts_good freshL ridL upL iL) hprevL hcurL hneL⟩

/-- C1 witness: a first attempt that times out after one text delta, for each
adapter. -/
theorem c1_no_retry_after_partial_output_witness :
    countFinals (retryLoop (googleAttempts fresh8 "r"
      (fun _ => ⟨[s1Chunk], true⟩))).deltas = 1 ∧
    countFinals (retryLoop (lcAttempts fresh8 "r"
      (fun _ => ⟨[lcTextUsageChunk], true⟩))).deltas = 1 := by
  have h := c1_no_retry_after_partial_output fresh8 fresh8 "r" "r"
    (fun _ => ⟨[s1Chunk], true⟩) (fun _ => ⟨[lcTextUsageChunk], true⟩)
    0 0 [⟨.text "Hello!", false⟩] [⟨.text "ok", false⟩]
    (timeoutMsg "r" 180) (timeoutMsg "r" 180)
    (by decide) (fun j hj => absurd hj (Nat.not_lt_zero j)) rfl (by decide)
    (by decide) (fun j hj => absurd hj (Nat.not_lt_zero j)) rfl (by decide)
  exact ⟨h.1.2.1, h.2.2.1⟩

/-! # Lemmas: final-marker discipline of the retry loop -/

theorem endsProperly_errorFinal (m c : String) :
    endsProperly [errorFinalDelta m c] := by
  have h1 : countErrors [errorFinalDelta m c] = 1 := rfl
  refine ⟨rfl, ⟨errorFinalDelta m c, rfl, rfl⟩, le_of_eq h1, ?_, ?_⟩
  · intro h0
    rw [h1] at h0
    exact absurd h0 one_ne_zero
  · intro _
    exact ⟨m, c, rfl⟩

/-- A stream of error-free non-final deltas closed by the bare final marker
ends properly, with the success attribution: no error delta, bare final
last. -/
theorem endsProperly_concat_bare {ds : List GenerateResponse}
    (hfin : ∀ d ∈ ds, d.isFinal = false)
    (herr : ∀ d ∈ ds, d.payload.isError = false) :
    endsProperly (ds ++ [⟨.none, true⟩]) := by
  have h0 : countErrors (ds ++ [(⟨.none, true⟩ : GenerateResponse)]) = 0 := by
    rw [countErrors_append, countErrors_eq_zero herr]
    rfl
  refine ⟨?_, ⟨_, List.getLast?_concat _, rfl⟩, ?_, ?_, ?_⟩
  · rw [countFinals_append, countFinals_eq_zero hfin]
    rfl
  · rw [h0]
    exact Nat.zero_le 1
  · intro _
    exact List.getLast?_concat _
  · intro h1
    rw [h0] at h1
    exact absurd h1 (by decide)

/-- A stream of error-free non-final deltas closed by a non-retryable
error delta carrying the final marker ends properly, with the failure
attribution: exactly one error delta, last. -/
theorem endsProperly_concat_error {ds : List GenerateResponse}
    (hfin : ∀ d ∈ ds, d.isFinal = false)
    (herr : ∀ d ∈ ds, d.payload.isError = false) (m c : String) :
    endsProperly (ds ++ [⟨.error m c false, true⟩]) := by
  have h1 : countErrors (ds ++ [(⟨.error m c false, true⟩ : GenerateResponse)]) = 1 := by
    rw [countErrors_append, countErrors_eq_zero herr]
    rfl
  refine ⟨?_, ⟨_, List.getLast?_concat _, rfl⟩, le_of_eq h1, ?_, ?_⟩
  · rw [countFinals_append, countFinals_eq_zero hfin]
    rfl
  · intro h0
    rw [h1] at h0
    exact absurd h0 one_ne_zero
  · intro _
    exact ⟨m, c, List.getLast?_concat _⟩

theorem retryLoopAux_endsProperly (attempts : Nat → AttemptOutcome)
    (h : ∀ i, goodAttemptP (attempts i)) :
    ∀ (fuel a : Nat) (le : String),
      endsProperly (retryLoopAux attempts a fuel le).deltas := by
  intro fuel
  induction fuel with
  | zero =>
    intro a le
    exact endsProperly_errorFinal (maxRetriesMsg le) "max_retries"
  | succ f ih =>
    intro a le
    have hg := h a
    cases hres : (attempts a).result with
    | completed =>
      obtain ⟨pre, hpre, hprefacts⟩ := hg.1 hres
      simp only [retryLoopAux, hres]
      show endsProperly (attempts a).deltas
      rw [hpre]
      exact endsProperly_concat_bare (fun d hd => (hprefacts d hd).1)
        (fun d hd => (hprefacts d hd).2)
    | retryableErr m =>
      have hfacts := hg.2.1 m hres
      by_cases hlen : (attempts a).deltas.length > 0
      · simp only [retryLoopAux, hres, hlen, if_true]
        exact endsProperly_concat_error (fun d hd => (hfacts d hd).1)
          (fun d hd => (hfacts d hd).2) _ _
      · have hds : (attempts a).deltas = [] := List.length_eq_zero.mp (by omega)
        simp only [retryLoopAux, hres, hlen, if_false, hds, List.nil_append]
        exact ih (a + 1) m
    | fatalErr m =>
      have hfacts := hg.2.2 m hres
      simp only [retryLoopAux, hres]
      exact endsProperly_concat_error (fun d hd => (hfacts d hd).1)
        (fun d hd => (hfacts d hd).2) _ _

theorem retryLoop_endsProperly (attempts : Nat → AttemptOutcome)
    (h : ∀ i, goodAttemptP (attempts i)) :
    endsProperly (retryLoop attempts).deltas :=
  retryLoopAux_endsProperly attempts h MAX_RETRIES 0 "None"

/-! # Claim C2 -/

/-- C2.  For every completed request of either provider — whatever the
environment, JSON parser, id supply, request contents (including caller
tools whose names may fail `_bind_tools` validation), and upstream stream
behaviour of every attempt — the outbound delta stream contains exactly one
delta carrying the final marker, that delta is the last one emitted, and
the final delta's form is attributed to the stream's fate: the stream
carries at most one error delta; a successful stream (one with no error
delta) ends with the bare final marker; a failed stream (one with an error
delta) ends with that error delta, non-retryable, carrying the final
marker. -/
theorem c2_final_marker_uniqueness (env : String → Option String)
    (jloads : String → Option Json) (fresh : Nat → String) (rid : String)
    (req : GenerateRequest) (upG : Nat → GoogleUpstreamAttempt)
    (upL : Nat → LCUpstreamAttempt) :
    endsProperly (googleGenerate env jloads fresh rid req upG) ∧
    endsProperly (lcGenerate env jloads fresh rid req upL) := by
  constructor
  · unfold googleGenerate
    split
    · exact endsProperly_errorFinal _ _
    · split
      · exact endsProperly_errorFinal _ _
      · split
        · exact endsProperly_errorFinal _ _
        · split
          · exact endsProperly_errorFinal _ _
          · exact retryLoop_endsProperly _ (googleAttempts_good fresh rid upG)
  · unfold lcGenerate
    split
    · exact endsProperly_errorFinal _ _
    · exact endsProperly_errorFinal _ _
    · exact endsProperly_errorFinal _ _
    · split
      · exact endsProperly_errorFinal _ _
      · exact retryLoop_endsProperly _ (lcAttempts_good fresh rid upL)

theorem c2_final_marker_uniqueness_witness :
    endsProperly (googleGenerate (fun _ => some "k") jloadsNone fresh8 "r"
        ⟨"s", "e", ⟨"google", "gemini", "GOOGLE_API_KEY", "", "",
          ⟨false, false, false⟩⟩, [mkMsg "user" "hi"], []⟩
        (fun _ => ⟨[s1Chunk], false⟩)) ∧
    endsProperly (lcGenerate (fun _ => some "k") jloadsNone fresh8 "r"
        ⟨"s", "e", ⟨"google", "gemini", "GOOGLE_API_KEY", "", "",
          ⟨false, false, false⟩⟩, [mkMsg "user" "hi"], []⟩
        (fun _ => ⟨[lcTextUsageChunk], false⟩)) :=
  c2_final_marker_uniqueness (fun _ => some "k") jloadsNone fresh8 "r" _ _ _

/-! # Claim C4 -/

/-- C4.  For every upstream attempt that runs to the end of its stream
having emitted zero content-bearing deltas (every mid-stream delta is
content-bearing, so this is `out = []`; for langchain also no accumulated
tool call, which would be emitted as content), the adapter raises the
retryable "empty response" condition rather than completing, and the usage
and grounding metadata buffered during the attempt are discarded: the
attempt's outbound delta list is empty. -/
theorem c4_empty_stream_retryable (freshG freshL : Nat → String)
    (gchunks : List GChunk) (lchunks : List LCChunk) (ridG ridL : String)
    (tsG tsL : Nat)
    (hG : (gFold freshG gchunks).out = [])
    (hL1 : (lcFold lchunks).out = [])
    (hL2 : (lcFold lchunks).pending = []) :
    googleStreamRun freshG gchunks false ridG tsG =
      ⟨[], .retryableErr (emptyResponseMsg ridG)⟩ ∧
    lcStreamRun freshL lchunks false ridL tsL =
      ⟨[], .retryableErr (emptyResponseMsg ridL)⟩ := by
  constructor
  · have hc : (gFold freshG gchunks).hasContent = false := by
      cases hx : (gFold freshG gchunks).hasContent
      · rfl
      · exact absurd hG ((gFold_inv freshG gchunks).2.2.1 hx)
    rw [googleStreamRun_empty_eq freshG gchunks ridG tsG hc, hG]
  · have hc : (lcFold lchunks).hasContent = false := by
      cases hx : (lcFold lchunks).hasContent
      · rfl
      · exact absurd hL1 ((lcFold_inv lchunks).2.2 hx)
    have hp : (sortByKey (lcFold lchunks).pending).isEmpty = true := by
      rw [hL2]
      rfl
    rw [lcStreamRun_empty_eq freshL lchunks ridL tsL hc hp, hL1, hL2]
    rfl

/-- C4 witness: attempts that deliver only usage metadata. -/
theorem c4_empty_stream_retryable_witness :
    googleStreamRun fresh8 [gUsageOnlyChunk] false "r" 180 =
      ⟨[], .retryableErr (emptyResponseMsg "r")⟩ ∧
    lcStreamRun fresh8 [lcUsageOnlyChunk] false "r" 180 =
      ⟨[], .retryableErr (emptyResponseMsg "r")⟩ :=
  c4_empty_stream_retryable fresh8 fresh8 [gUsageOnlyChunk] [lcUsageOnlyChunk]
    "r" "r" 180 180 rfl rfl rfl

/-! # Claim C9 -/

/-- C9.  Whenever the caller-defined tool list is non-empty, a successful
`_convert_tools` produces only the function declarations built from the
caller tools: no `google_search`, `code_execution` or `url_context` tool is
added, whatever the native-tool flags say. -/
theorem c9_native_tool_suppression (jloads : String → Option Json)
    (tools : List ToolDefinition) (native : NativeTools) (h : tools ≠ []) :
    ∀ r, googleConvertTools jloads tools native = .ok r →
      ∃ ds, googleDeclsOf jloads tools = .ok ds ∧
        r = some [GTool.functionDeclarations ds] := by
  intro r hr
  have hlen : tools.length > 0 := List.length_pos.mpr h
  unfold googleConvertTools at hr
  rw [show decide (tools.length > 0) = true from decide_eq_true hlen] at hr
  cases hds : googleDeclsOf jloads tools with
  | error e =>
    rw [hds] at hr
    simp [Bind.bind, Except.bind] at hr
  | ok ds =>
    rw [hds] at hr
    simp only [Bind.bind, Except.bind, if_true, pure, Except.pure,
      Bool.not_true, List.isEmpty_cons] at hr
    refine ⟨ds, rfl, ?_⟩
    cases hr
    rfl

/-- C9 witness: one caller tool with every native-tool flag set. -/
theorem c9_native_tool_suppression_witness :
    ∃ ds, googleDeclsOf jloadsNone [⟨"server.read", "d", ""⟩] = .ok ds ∧
      (some [GTool.functionDeclarations [⟨"server__read", "d", none⟩]] :
         Option (List GTool)) = some [GTool.functionDeclarations ds] :=
  c9_native_tool_suppression jloadsNone [⟨"server.read", "d", ""⟩]
    ⟨true, true, true⟩ (by simp) _ rfl

/-! # Lemmas: google message conversion -/

/-- Converting a run of user messages just steps the index and extends the
accumulator. -/
theorem googleConvertMessagesAux_users (jloads : String → Option Json) :
    ∀ (l1 : List ConversationMessage), (∀ mm ∈ l1, mm.role = "user") →
    ∀ (idx : Nat) (sys : Option String) (acc : List GContent)
      (rest : List ConversationMessage),
      ∃ acc', googleConvertMessagesAux jloads idx sys acc (l1 ++ rest) =
        googleConvertMessagesAux jloads (idx + l1.length) sys acc' rest := by
  intro l1
  induction l1 with
  | nil =>
    intro _ idx sys acc rest
    exact ⟨acc, by simp⟩
  | cons mm l ih =>
    intro h idx sys acc rest
    have hm : mm.role = "user" := h mm (List.mem_cons_self _ _)
    obtain ⟨acc', hacc⟩ := ih (fun x hx => h x (List.mem_cons_of_mem _ hx))
      (idx + 1) sys (acc ++ [⟨"user", [GReqPart.text mm.content]⟩]) rest
    refine ⟨acc', ?_⟩
    rw [List.cons_append]
    rw [show googleConvertMessagesAux jloads idx sys acc (mm :: (l ++ rest)) =
        googleConvertMessagesAux jloads (idx + 1) sys
          (acc ++ [⟨"user", [GReqPart.text mm.content]⟩]) (l ++ rest) from by
      simp [googleConvertMessagesAux, hm]]
    rw [hacc]
    congr 1
    simp
    omega

/-! # Claim C8 -/

/-- C8, counterexample.  The langchain message mapper accepts a message list
with two system messages: conversion succeeds and returns two
`SystemMessage`s, no invalid-request error is raised.  The claim, which
requires *every* provider's mapper to fail on a duplicate system message,
is therefore false. -/
theorem c8_duplicate_system_cex :
    lcConvertMessages jloadsNone [mkMsg "system" "a", mkMsg "system" "b"] =
      .ok [.system "a", .system "b"] ∧
    ¬∃ e, lcConvertMessages jloadsNone [mkMsg "system" "a", mkMsg "system" "b"] =
      .error e := by
  refine ⟨rfl, ?_⟩
  rintro ⟨e, he⟩
  rw [show lcConvertMessages jloadsNone [mkMsg "system" "a", mkMsg "system" "b"] =
      .ok [.system "a", .system "b"] from rfl] at he
  cases he

/-- C8, amended.  The google-native mapper rejects a second system message:
for every message list of the form
`l1 ++ [system s1] ++ l2 ++ [system s2] ++ rest` with only user messages in
`l1` and `l2`, `_convert_messages` fails with the `ValueError` naming the
duplicate's index `|l1| + 1 + |l2|`, and `generate` (with valid credentials)
emits exactly one `invalid_request` error-final delta, producing no
provider-native request.  The langchain mapper imposes no such limit: a list
of two system messages converts successfully to two `SystemMessage`s. -/
theorem c8_duplicate_system_amended (jloads : String → Option Json)
    (l1 l2 rest : List ConversationMessage) (s1 s2 : String)
    (h1 : ∀ mm ∈ l1, mm.role = "user") (h2 : ∀ mm ∈ l2, mm.role = "user") :
    googleConvertMessages jloads
      (l1 ++ [mkMsg "system" s1] ++ l2 ++ [mkMsg "system" s2] ++ rest) =
      .error (dupSystemMsg (l1.length + 1 + l2.length)) ∧
    (∀ (env : String → Option String) (fresh : Nat → String) (rid : String)
       (cfg : LLMConfig) (sid eid : String) (tools : List ToolDefinition)
       (upstream : Nat → GoogleUpstreamAttempt) (key : String),
      env cfg.apiKeyEnv = some key → key ≠ "" →
      googleGenerate env jloads fresh rid
        ⟨sid, eid, cfg,
         l1 ++ [mkMsg "system" s1] ++ l2 ++ [mkMsg "system" s2] ++ rest,
         tools⟩ upstream =
        [errorFinalDelta (dupSystemMsg (l1.length + 1 + l2.length))
          "invalid_request"]) ∧
    (∀ a b : String,
      lcConvertMessages jloads [mkMsg "system" a, mkMsg "system" b] =
        .ok [.system a, .system b]) := by
  have hmain : googleConvertMessages jloads
      (l1 ++ [mkMsg "system" s1] ++ l2 ++ [mkMsg "system" s2] ++ rest) =
      .error (dupSystemMsg (l1.length + 1 + l2.length)) := by
    unfold googleConvertMessages
    rw [show l1 ++ [mkMsg "system" s1] ++ l2 ++ [mkMsg "system" s2] ++ rest =
        l1 ++ ([mkMsg "system" s1] ++ (l2 ++ ([mkMsg "system" s2] ++ rest))) from by
      simp [List.append_assoc]]
    obtain ⟨acc', hacc'⟩ := googleConvertMessagesAux_users jloads l1 h1 0 none []
      ([mkMsg "system" s1] ++ (l2 ++ ([mkMsg "system" s2] ++ rest)))
    rw [hacc']
    rw [show googleConvertMessagesAux jloads (0 + l1.length) none acc'
        ([mkMsg "system" s1] ++ (l2 ++ ([mkMsg "system" s2] ++ rest))) =
        googleConvertMessagesAux jloads (0 + l1.length + 1) (some s1) acc'
          (l2 ++ ([mkMsg "system" s2] ++ rest)) from by
      simp [googleConvertMessagesAux, mkMsg]]
    obtain ⟨acc'', hacc''⟩ := googleConvertMessagesAux_users jloads l2 h2
      (0 + l1.length + 1) (some s1) acc' ([mkMsg "system" s2] ++ rest)
    rw [hacc'']
    rw [show googleConvertMessagesAux jloads (0 + l1.length + 1 + l2.length)
        (some s1) acc'' ([mkMsg "system" s2] ++ rest) =
        .error (dupSystemMsg (0 + l1.length + 1 + l2.length)) from by
      simp [googleConvertMessagesAux, mkMsg]]
    congr 2
    omega
  refine ⟨hmain, ?_, ?_⟩
  · intro env fresh rid cfg sid eid tools upstream key henv hkey
    unfold googleGenerate
    simp only [henv, hkey, if_false, hmain]
  · intro a b
    rfl

/-- C8 witness: the amended statement at a concrete conversation. -/
theorem c8_duplicate_system_witness :
    googleConvertMessages jloadsNone
      ([mkMsg "user" "hi"] ++ [mkMsg "system" "x"] ++ [] ++ [mkMsg "system" "y"] ++ []) =
      .error (dupSystemMsg 2) ∧
    lcConvertMessages jloadsNone [mkMsg "system" "a", mkMsg "system" "b"] =
      .ok [.system "a", .system "b"] := by
  have h := c8_duplicate_system_amended jloadsNone [mkMsg "user" "hi"] [] [] "x" "y"
    (by decide) (by decide)
  exact ⟨h.1, h.2.2 "a" "b"⟩

/-! # Lemmas: usage buffering and accumulation -/

theorem getLast?_cons_getD {α : Type} (l : List α) (a : α) :
    (a :: l).getLast? = some ((l.getLast?).getD a) := by
  induction l generalizing a with
  | nil => rfl
  | cons b t ih =>
    rw [List.getLast?_cons_cons, ih b]
    simp

theorem gProcessPart_lastUsage (fresh : Nat → String) (st : GStreamState)
    (p : GPart) : (gProcessPart fresh st p).lastUsage = st.lastUsage := by
  unfold gProcessPart
  split
  · split <;> rfl
  · split
    · rfl
    · split
      · rfl
      · split
        · rfl
        · split <;> rfl

theorem gFoldParts_lastUsage (fresh : Nat → String) (parts : List GPart) :
    ∀ st, (parts.foldl (gProcessPart fresh) st).lastUsage = st.lastUsage := by
  induction parts with
  | nil => intro st; rfl
  | cons p rest ih =>
    intro st
    rw [List.foldl_cons, ih, gProcessPart_lastUsage]

theorem gApplyGrounding_lastUsage (st : GStreamState)
    (g : Option GGroundingMetadata) :
    (gApplyGrounding st g).lastUsage = st.lastUsage := by
  unfold gApplyGrounding
  split <;> rfl

theorem gProcessChunk_lastUsage (fresh : Nat → String) (st : GStreamState)
    (ch : GChunk) :
    (gProcessChunk fresh st ch).lastUsage =
      updateLastUsage st.lastUsage ch.usageMetadata := by
  unfold gProcessChunk
  split
  · rfl
  · unfold gProcessCandidate
    split
    · show (gBufferUsage _ _).lastUsage = _
      unfold gBufferUsage
      rw [show (gApplyGrounding st _).lastUsage = st.lastUsage from
        gApplyGrounding_lastUsage st _]
    · split
      · show (gBufferUsage _ _).lastUsage = _
        unfold gBufferUsage
        rw [show (gApplyGrounding st _).lastUsage = st.lastUsage from
          gApplyGrounding_lastUsage st _]
      · show (gBufferUsage _ _).lastUsage = _
        unfold gBufferUsage
        rw [gFoldParts_lastUsage, gApplyGrounding_lastUsage]

/-- The buffered usage after the chunk loop is the last usage metadata of the
stream (earlier ones are replaced, not accumulated). -/
theorem gFoldChunks_lastUsage (fresh : Nat → String) :
    ∀ (chunks : List GChunk) (st : GStreamState),
      (chunks.foldl (gProcessChunk fresh) st).lastUsage =
        match (gUsageMetas chunks).getLast? with
        | some um => some (mkUsageDelta um)
        | none => st.lastUsage := by
  intro chunks
  induction chunks with
  | nil => intro st; rfl
  | cons ch rest ih =>
    intro st
    rw [List.foldl_cons, ih, gProcessChunk_lastUsage]
    cases hum : ch.usageMetadata with
    | none =>
      rw [show gUsageMetas (ch :: rest) = gUsageMetas rest from by
        simp [gUsageMetas, List.filterMap_cons, hum]]
      rfl
    | some u =>
      rw [show gUsageMetas (ch :: rest) = u :: gUsageMetas rest from by
        simp [gUsageMetas, List.filterMap_cons, hum]]
      rw [getLast?_cons_getD]
      cases hlast : (gUsageMetas rest).getLast? with
      | none => simp [updateLastUsage]
      | some v => simp

theorem gFold_lastUsage (fresh : Nat → String) (chunks : List GChunk) :
    (gFold fresh chunks).lastUsage =
      match (gUsageMetas chunks).getLast? with
      | some um => some (mkUsageDelta um)
      | none => none :=
  gFoldChunks_lastUsage fresh chunks gInitState

theorem lcProcessBlock_acc (p : LCStreamState × Bool) (b : LCBlock) :
    (lcProcessBlock p b).1.accInput = p.1.accInput ∧
    (lcProcessBlock p b).1.accOutput = p.1.accOutput ∧
    (lcProcessBlock p b).1.accTotal = p.1.accTotal := by
  cases b <;> simp only [lcProcessBlock] <;>
    first
      | exact ⟨trivial, trivial, trivial⟩
      | exact ⟨rfl, rfl, rfl⟩
      | (split
         · exact ⟨rfl, rfl, rfl⟩
         · exact ⟨rfl, rfl, rfl⟩)

theorem lcBlocksFold_acc (blocks : List LCBlock) :
    ∀ p : LCStreamState × Bool,
      (blocks.foldl lcProcessBlock p).1.accInput = p.1.accInput ∧
      (blocks.foldl lcProcessBlock p).1.accOutput = p.1.accOutput ∧
      (blocks.foldl lcProcessBlock p).1.accTotal = p.1.accTotal := by
  induction blocks with
  | nil => intro p; exact ⟨rfl, rfl, rfl⟩
  | cons b rest ih =>
    intro p
    obtain ⟨i1, i2, i3⟩ := ih (lcProcessBlock p b)
    obtain ⟨j1, j2, j3⟩ := lcProcessBlock_acc p b
    rw [List.foldl_cons]
    exact ⟨i1.trans j1, i2.trans j2, i3.trans j3⟩

theorem lcApplyReasoningKwarg_acc (r? : Option String) (p : LCStreamState × Bool) :
    (lcApplyReasoningKwarg r? p).1.accInput = p.1.accInput ∧
    (lcApplyReasoningKwarg r? p).1.accOutput = p.1.accOutput ∧
    (lcApplyReasoningKwarg r? p).1.accTotal = p.1.accTotal := by
  unfold lcApplyReasoningKwarg
  split
  · split
    · exact ⟨rfl, rfl, rfl⟩
    · exact ⟨rfl, rfl, rfl⟩
  · exact ⟨rfl, rfl, rfl⟩

theorem lcProcessContentPart_acc (st : LCStreamState) (p : LCContentPart) :
    (lcProcessContentPart st p).accInput = st.accInput ∧
    (lcProcessContentPart st p).accOutput = st.accOutput ∧
    (lcProcessContentPart st p).accTotal = st.accTotal := by
  cases p <;> simp only [lcProcessContentPart] <;>
    first
      | exact ⟨trivial, trivial, trivial⟩
      | exact ⟨rfl, rfl, rfl⟩
      | (split
         · exact ⟨rfl, rfl, rfl⟩
         · exact ⟨rfl, rfl, rfl⟩)

theorem lcContentPartsFold_acc (parts : List LCContentPart) :
    ∀ st, (parts.foldl lcProcessContentPart st).accInput = st.accInput ∧
      (parts.foldl lcProcessContentPart st).accOutput = st.accOutput ∧
      (parts.foldl lcProcessContentPart st).accTotal = st.accTotal := by
  induction parts with
  | nil => intro st; exact ⟨rfl, rfl, rfl⟩
  | cons p rest ih =>
    intro st
    obtain ⟨i1, i2, i3⟩ := ih (lcProcessContentPart st p)
    obtain ⟨j1, j2, j3⟩ := lcProcessContentPart_acc st p
    rw [List.foldl_cons]
    exact ⟨i1.trans j1, i2.trans j2, i3.trans j3⟩

theorem lcContentPhase_acc (c : AIChunk) (st : LCStreamState) :
    (lcContentPhase c st).accInput = st.accInput ∧
    (lcContentPhase c st).accOutput = st.accOutput ∧
    (lcContentPhase c st).accTotal = st.accTotal := by
  unfold lcContentPhase lcContentFallback
  obtain ⟨k1, k2, k3⟩ := lcApplyReasoningKwarg_acc c.reasoningSummaryChunk
    (c.contentBlocks.foldl lcProcessBlock (st, false))
  obtain ⟨b1, b2, b3⟩ := lcBlocksFold_acc c.contentBlocks (st, false)
  split
  · split
    · split
      · exact ⟨k1.trans b1, k2.trans b2, k3.trans b3⟩
      · exact ⟨k1.trans b1, k2.trans b2, k3.trans b3⟩
    · split
      · exact ⟨k1.trans b1, k2.trans b2, k3.trans b3⟩
      · obtain ⟨p1, p2, p3⟩ := lcContentPartsFold_acc _
          (lcApplyReasoningKwarg c.reasoningSummaryChunk
            (c.contentBlocks.foldl lcProcessBlock (st, false))).1
        exact ⟨(p1.trans k1).trans b1, (p2.trans k2).trans b2,
               (p3.trans k3).trans b3⟩
  · exact ⟨k1.trans b1, k2.trans b2, k3.trans b3⟩

theorem lcProcessChunk_acc (st : LCStreamState) (ch : LCChunk) :
    (lcProcessChunk st ch).accInput = st.accInput + lcUsageIn ch ∧
    (lcProcessChunk st ch).accOutput = st.accOutput + lcUsageOut ch ∧
    (lcProcessChunk st ch).accTotal = st.accTotal + lcUsageTotal ch := by
  cases ch with
  | nonAI => exact ⟨by simp [lcProcessChunk, lcUsageIn],
      by simp [lcProcessChunk, lcUsageOut], by simp [lcProcessChunk, lcUsageTotal]⟩
  | ai c =>
    obtain ⟨c1, c2, c3⟩ := lcContentPhase_acc c st
    simp only [lcProcessChunk, lcUsagePhase, lcToolPhase]
    cases hum : c.usageMetadata with
    | none =>
      simp only [lcUsageIn, lcUsageOut, lcUsageTotal, hum]
      exact ⟨by rw [c1]; simp, by rw [c2]; simp, by rw [c3]; simp⟩
    | some um =>
      simp only [lcUsageIn, lcUsageOut, lcUsageTotal, hum]
      exact ⟨by rw [c1], by rw [c2], by rw [c3]⟩

theorem lcFoldChunks_acc :
    ∀ (chunks : List LCChunk) (st : LCStreamState),
      (chunks.foldl lcProcessChunk st).accInput =
        st.accInput + (chunks.map lcUsageIn).sum ∧
      (chunks.foldl lcProcessChunk st).accOutput =
        st.accOutput + (chunks.map lcUsageOut).sum ∧
      (chunks.foldl lcProcessChunk st).accTotal =
        st.accTotal + (chunks.map lcUsageTotal).sum := by
  intro chunks
  induction chunks with
  | nil => intro st; exact ⟨by simp, by simp, by simp⟩
  | cons ch rest ih =>
    intro st
    obtain ⟨i1, i2, i3⟩ := ih (lcProcessChunk st ch)
    obtain ⟨j1, j2, j3⟩ := lcProcessChunk_acc st ch
    rw [List.foldl_cons]
    refine ⟨?_, ?_, ?_⟩
    · rw [i1, j1]; simp [Nat.add_assoc]
    · rw [i2, j2]; simp [Nat.add_assoc]
    · rw [i3, j3]; simp [Nat.add_assoc]

theorem lcFold_acc (chunks : List LCChunk) :
    (lcFold chunks).accInput = (chunks.map lcUsageIn).sum ∧
    (lcFold chunks).accOutput = (chunks.map lcUsageOut).sum ∧
    (lcFold chunks).accTotal = (chunks.map lcUsageTotal).sum := by
  obtain ⟨i1, i2, i3⟩ := lcFoldChunks_acc chunks lcInitState
  refine ⟨?_, ?_, ?_⟩
  · rw [show lcFold chunks = chunks.foldl lcProcessChunk lcInitState from rfl, i1]
    simp [lcInitState]
  · rw [show lcFold chunks = chunks.foldl lcProcessChunk lcInitState from rfl, i2]
    simp [lcInitState]
  · rw [show lcFold chunks = chunks.foldl lcProcessChunk lcInitState from rfl, i3]
    simp [lcInitState]

theorem googleStreamRun_completed_hasContent (fresh : Nat → String)
    (chunks : List GChunk) (rid : String) (ts : Nat)
    (ds : List GenerateResponse)
    (h : googleStreamRun fresh chunks false rid ts = ⟨ds, .completed⟩) :
    (gFold fresh chunks).hasContent = true := by
  cases hx : (gFold fresh chunks).hasContent
  · rw [googleStreamRun_empty_eq fresh chunks rid ts hx] at h
    simp at h
  · rfl

theorem lcStreamRun_completed_cond (fresh : Nat → String)
    (chunks : List LCChunk) (rid : String) (ts : Nat)
    (ds : List GenerateResponse)
    (h : lcStreamRun fresh chunks false rid ts = ⟨ds, .completed⟩) :
    ((lcFold chunks).hasContent
      || !(sortByKey (lcFold chunks).pending).isEmpty) = true := by
  cases hcond : ((lcFold chunks).hasContent
      || !(sortByKey (lcFold chunks).pending).isEmpty)
  · have h1 : (lcFold chunks).hasContent = false := by
      cases hx : (lcFold chunks).hasContent
      · rfl
      · rw [hx] at hcond; simp at hcond
    have h2 : (sortByKey (lcFold chunks).pending).isEmpty = true := by
      cases hx : (sortByKey (lcFold chunks).pending).isEmpty
      · rw [hx] at hcond; simp [h1] at hcond
      · rfl
    rw [lcStreamRun_empty_eq fresh chunks rid ts h1 h2] at h
    simp at h
  · rfl

/-! # Claim C6 -/

/-- C6, counterexample.  The langchain adapter *accumulates* usage metadata
across chunks instead of keeping the last one seen: a stream whose chunks
carry usage `{1, 2, 3}` and then `{10, 20, 30}` yields a usage delta with
token counts `{11, 22, 33}`, while the last usage metadata seen upstream is
`{10, 20, 30}`.  The claim that the emitted counts equal those of the last
usage metadata (replaced, not accumulated) is therefore false. -/
theorem c6_usage_last_seen_cex :
    lcStreamRun fresh8 [lcTextUsageChunk, lcUsageOnlyChunk] false "r" 180 =
      ⟨[⟨.text "ok", false⟩, ⟨.usage ⟨11, 22, 33, 0⟩, false⟩, ⟨.none, true⟩],
       .completed⟩ ∧
    (lcUsageMetas [lcTextUsageChunk, lcUsageOnlyChunk]).getLast? =
      some ⟨10, 20, 30⟩ ∧
    (⟨11, 22, 33, 0⟩ : UsageInfo) ≠ ⟨10, 20, 30, 0⟩ :=
  ⟨rfl, rfl, by decide⟩

/-- C6, amended.  On every successful stream, at most one usage delta is
emitted, strictly after all content deltas and before the final marker (the
output decomposes as `pre ++ usage? ++ [final]` with no usage and no final
marker inside `pre`).  Its token counts equal those of the *last* usage
metadata seen upstream for the google-native adapter (earlier ones are
replaced), but the componentwise *sum* of all usage metadata seen for the
langchain adapter (which accumulates and drops the thinking-token count). -/
theorem c6_usage_placement_amended :
    (∀ (fresh : Nat → String) (chunks : List GChunk) (rid : String) (ts : Nat)
       (ds : List GenerateResponse),
      googleStreamRun fresh chunks false rid ts = ⟨ds, .completed⟩ →
      ∃ pre, ds = (pre ++ (match (gUsageMetas chunks).getLast? with
          | some um => [mkUsageDelta um]
          | none => [])) ++ [⟨.none, true⟩] ∧
        ∀ d ∈ pre, d.payload.isUsage = false ∧ d.isFinal = false) ∧
    (∀ (fresh : Nat → String) (chunks : List LCChunk) (rid : String) (ts : Nat)
       (ds : List GenerateResponse),
      lcStreamRun fresh chunks false rid ts = ⟨ds, .completed⟩ →
      ∃ pre, ds = (pre ++ lcUsageSuffix ((chunks.map lcUsageIn).sum)
          ((chunks.map lcUsageOut).sum) ((chunks.map lcUsageTotal).sum))
          ++ [⟨.none, true⟩] ∧
        ∀ d ∈ pre, d.payload.isUsage = false ∧ d.isFinal = false) := by
  constructor
  · intro fresh chunks rid ts ds h
    have hc := googleStreamRun_completed_hasContent fresh chunks rid ts ds h
    rw [googleStreamRun_completed_eq fresh chunks rid ts hc] at h
    have hds : ds = (((gFold fresh chunks).out
        ++ gGroundingSuffix (gFold fresh chunks).lastGrounding)
        ++ gUsageSuffix (gFold fresh chunks).lastUsage) ++ [⟨.none, true⟩] := by
      have := congrArg AttemptOutcome.deltas h
      simpa using this.symm
    refine ⟨(gFold fresh chunks).out
        ++ gGroundingSuffix (gFold fresh chunks).lastGrounding, ?_, ?_⟩
    · rw [hds]
      have : gUsageSuffix (gFold fresh chunks).lastUsage =
          (match (gUsageMetas chunks).getLast? with
            | some um => [mkUsageDelta um]
            | none => []) := by
        rw [gFold_lastUsage]
        cases hl : (gUsageMetas chunks).getLast? <;> simp [gUsageSuffix]
      rw [this]
    · intro d hd
      rcases List.mem_append.mp hd with hd | hd
      · have hfacts := (gFold_inv fresh chunks).1 d hd
        exact ⟨isContent_not_usage hfacts.2, hfacts.1⟩
      · cases hg : (gFold fresh chunks).lastGrounding with
        | none => rw [hg] at hd; simp [gGroundingSuffix] at hd
        | some gm =>
          rw [hg] at hd
          simp only [gGroundingSuffix, List.mem_singleton] at hd
          rw [hd]
          exact ⟨rfl, rfl⟩
  · intro fresh chunks rid ts ds h
    have hc := lcStreamRun_completed_cond fresh chunks rid ts ds h
    rw [lcStreamRun_completed_eq fresh chunks rid ts hc] at h
    have hds : ds = (((lcFold chunks).out
        ++ lcEmitToolCalls fresh 0 (sortByKey (lcFold chunks).pending))
        ++ lcUsageSuffix (lcFold chunks).accInput (lcFold chunks).accOutput
             (lcFold chunks).accTotal) ++ [⟨.none, true⟩] := by
      have := congrArg AttemptOutcome.deltas h
      simpa using this.symm
    obtain ⟨a1, a2, a3⟩ := lcFold_acc chunks
    refine ⟨(lcFold chunks).out
        ++ lcEmitToolCalls fresh 0 (sortByKey (lcFold chunks).pending), ?_, ?_⟩
    · rw [hds, a1, a2, a3]
    · intro d hd
      rcases List.mem_append.mp hd with hd | hd
      · have hfacts := (lcFold_inv chunks).1 d hd
        exact ⟨isContent_not_usage hfacts.2.1, hfacts.1⟩
      · have hfacts := lcEmitToolCalls_mem fresh _ 0 d hd
        exact ⟨isContent_not_usage (isToolCall_isContent hfacts.2), hfacts.1⟩

/-- C6 witness: the amended decomposition at concrete streams. -/
theorem c6_usage_placement_witness :
    (∃ pre, ([⟨.text "Hello!", false⟩, ⟨.usage ⟨10, 20, 30, 5⟩, false⟩,
        ⟨.none, true⟩] : List GenerateResponse) =
        (pre ++ (match (gUsageMetas [gTextUsageChunk]).getLast? with
          | some um => [mkUsageDelta um]
          | none => [])) ++ [⟨.none, true⟩] ∧
      ∀ d ∈ pre, d.payload.isUsage = false ∧ d.isFinal = false) ∧
    (∃ pre, ([⟨.text "ok", false⟩, ⟨.usage ⟨11, 22, 33, 0⟩, false⟩,
        ⟨.none, true⟩] : List GenerateResponse) =
        (pre ++ lcUsageSuffix
          (([lcTextUsageChunk, lcUsageOnlyChunk].map lcUsageIn).sum)
          (([lcTextUsageChunk, lcUsageOnlyChunk].map lcUsageOut).sum)
          (([lcTextUsageChunk, lcUsageOnlyChunk].map lcUsageTotal).sum))
          ++ [⟨.none, true⟩] ∧
      ∀ d ∈ pre, d.payload.isUsage = false ∧ d.isFinal = false) :=
  ⟨c6_usage_placement_amended.1 fresh8 [gTextUsageChunk] "r" 180 _ rfl,
   c6_usage_placement_amended.2 fresh8 [lcTextUsageChunk, lcUsageOnlyChunk]
     "r" 180 _ rfl⟩

/-! # Lemmas: strings -/

theorem str_append_empty (a : String) : a ++ "" = a :=
  String.append_empty a

theorem str_empty_append (a : String) : "" ++ a = a :=
  String.empty_append a

theorem str_append_assoc (a b c : String) : a ++ b ++ c = a ++ (b ++ c) :=
  String.append_assoc a b c

theorem string_length8_ne_empty {s : String} (h : s.length = 8) : s ≠ "" := by
  intro he
  subst he
  simp at h

/-! # Lemmas: tool-call fragment accumulation -/

/-- One fragment application, written with the truthy projections. -/
theorem updateEntry_eq (e : LCEntry) (tc : ToolCallChunk) :
    updateEntry e tc =
      ⟨(truthyStr tc.id).getD e.id, (truthyStr tc.name).getD e.name,
       e.args ++ (truthyStr tc.args).getD ""⟩ := by
  obtain ⟨eid, ename, eargs⟩ := e
  simp only [updateEntry, truthyStr]
  cases tc.name <;> cases tc.id <;> cases tc.args <;>
    simp only [Option.getD_some, Option.getD_none] <;>
    (try split_ifs) <;>
    simp_all [str_append_empty]

/-- Folding a fragment list over an entry yields: last non-empty id, last
non-empty name, and the concatenation of all non-empty args. -/
theorem foldl_updateEntry (fs : List ToolCallChunk) :
    ∀ e : LCEntry, fs.foldl updateEntry e =
      ⟨((fs.filterMap fun tc => truthyStr tc.id).getLast?).getD e.id,
       ((fs.filterMap fun tc => truthyStr tc.name).getLast?).getD e.name,
       e.args ++ concatStrs (fs.filterMap fun tc => truthyStr tc.args)⟩ := by
  induction fs with
  | nil =>
    intro e
    cases e
    simp [concatStrs, str_append_empty]
  | cons tc rest ih =>
    intro e
    rw [List.foldl_cons, ih (updateEntry e tc), updateEntry_eq]
    refine congrArg₂ (fun p q => LCEntry.mk p q.1 q.2) ?_ (congrArg₂ Prod.mk ?_ ?_)
    · simp only [List.filterMap_cons]
      cases hid : truthyStr tc.id with
      | none => simp
      | some v =>
        rw [getLast?_cons_getD]
        cases hl : ((rest.filterMap fun tc => truthyStr tc.id).getLast?) <;> simp
    · simp only [List.filterMap_cons]
      cases hn : truthyStr tc.name with
      | none => simp
      | some v =>
        rw [getLast?_cons_getD]
        cases hl : ((rest.filterMap fun tc => truthyStr tc.name).getLast?) <;> simp
    · simp only [List.filterMap_cons]
      cases ha : truthyStr tc.args with
      | none => simp [str_append_empty]
      | some v => simp [concatStrs, str_append_assoc]

/-- `lookupPending` after one `updatePending`. -/
theorem lookupPending_updatePending (pd : List (Nat × LCEntry)) (idx : Nat)
    (tc : ToolCallChunk) (j : Nat) :
    lookupPending (updatePending pd idx tc) j =
      if j = idx then
        some (updateEntry ((lookupPending pd idx).getD ⟨"", "", ""⟩) tc)
      else lookupPending pd j := by
  induction pd with
  | nil =>
    by_cases hj : j = idx
    · subst hj
      simp [updatePending, lookupPending]
    · have hj' : ¬(idx = j) := fun hh => hj hh.symm
      simp [updatePending, lookupPending, hj, hj']
  | cons p rest ih =>
    obtain ⟨k, e⟩ := p
    by_cases hk : k = idx
    · subst hk
      simp only [updatePending, if_pos rfl]
      by_cases hj : j = k
      · subst hj
        simp [lookupPending]
      · have hj' : ¬(k = j) := fun hh => hj hh.symm
        simp [lookupPending, hj, hj']
    · simp only [updatePending, if_neg hk]
      by_cases hj : j = k
      · subst hj
        simp [lookupPending, hk]
      · have hj' : ¬(k = j) := fun hh => hj hh.symm
        simp only [lookupPending, if_neg hj']
        rw [ih]
        simp [lookupPending, hk]

/-- `lookupPending` after folding a whole fragment list into the table. -/
theorem lookupPending_foldFrags (fs : List ToolCallChunk) :
    ∀ (pd : List (Nat × LCEntry)) (i : Nat),
      lookupPending
        (fs.foldl (fun pd tc => updatePending pd (tc.index.getD 0) tc) pd) i =
      (if (fs.filter fun tc => tc.index.getD 0 == i) = [] then lookupPending pd i
       else some ((fs.filter fun tc => tc.index.getD 0 == i).foldl updateEntry
                  ((lookupPending pd i).getD ⟨"", "", ""⟩))) := by
  induction fs with
  | nil => intro pd i; simp
  | cons tc rest ih =>
    intro pd i
    rw [List.foldl_cons, ih (updatePending pd (tc.index.getD 0) tc) i,
      lookupPending_updatePending]
    by_cases hidx : tc.index.getD 0 = i
    · rw [hidx]
      have hfil : (tc :: rest).filter (fun tc => tc.index.getD 0 == i) =
          tc :: rest.filter (fun tc => tc.index.getD 0 == i) := by
        simp [List.filter_cons, hidx]
      rw [hfil, if_pos rfl]
      by_cases hrest : rest.filter (fun tc => tc.index.getD 0 == i) = []
      · rw [if_pos hrest, if_neg (List.cons_ne_nil tc _), hrest, List.foldl_cons,
          List.foldl_nil]
      · rw [if_neg hrest, if_neg (List.cons_ne_nil tc _), List.foldl_cons,
          Option.getD_some]
    · have hfil : (tc :: rest).filter (fun tc => tc.index.getD 0 == i) =
          rest.filter (fun tc => tc.index.getD 0 == i) := by
        simp [List.filter_cons, hidx]
      rw [hfil, if_neg (fun hh : i = tc.index.getD 0 => hidx hh.symm)]

/-! # Lemmas: pending table across the chunk loop -/

theorem lcProcessBlock_pending (p : LCStreamState × Bool) (b : LCBlock) :
    (lcProcessBlock p b).1.pending = p.1.pending := by
  cases b <;> simp only [lcProcessBlock] <;>
    first
      | rfl
      | (split
         · rfl
         · rfl)

theorem lcBlocksFold_pending (blocks : List LCBlock) :
    ∀ p : LCStreamState × Bool,
      (blocks.foldl lcProcessBlock p).1.pending = p.1.pending := by
  induction blocks with
  | nil => intro p; rfl
  | cons b rest ih =>
    intro p
    rw [List.foldl_cons, ih, lcProcessBlock_pending]

theorem lcApplyReasoningKwarg_pending (r? : Option String)
    (p : LCStreamState × Bool) :
    (lcApplyReasoningKwarg r? p).1.pending = p.1.pending := by
  unfold lcApplyReasoningKwarg
  split
  · split <;> rfl
  · rfl

theorem lcProcessContentPart_pending (st : LCStreamState) (p : LCContentPart) :
    (lcProcessContentPart st p).pending = st.pending := by
  cases p <;> simp only [lcProcessContentPart] <;>
    first
      | rfl
      | (split
         · rfl
         · rfl)

theorem lcContentPartsFold_pending (parts : List LCContentPart) :
    ∀ st, (parts.foldl lcProcessContentPart st).pending = st.pending := by
  induction parts with
  | nil => intro st; rfl
  | cons p rest ih =>
    intro st
    rw [List.foldl_cons, ih, lcProcessContentPart_pending]

theorem lcEmitDelta_pending (st : LCStreamState) (pl : Payload) :
    (lcEmitDelta st pl).pending = st.pending := rfl

theorem lcContentPhase_pending (c : AIChunk) (st : LCStreamState) :
    (lcContentPhase c st).pending = st.pending := by
  unfold lcContentPhase lcContentFallback
  split
  · split
    · split
      · rw [lcEmitDelta_pending,
          lcApplyReasoningKwarg_pending, lcBlocksFold_pending]
      · rw [lcApplyReasoningKwarg_pending, lcBlocksFold_pending]
    · split
      · rw [lcApplyReasoningKwarg_pending, lcBlocksFold_pending]
      · rw [lcContentPartsFold_pending, lcApplyReasoningKwarg_pending,
          lcBlocksFold_pending]
  · rw [lcApplyReasoningKwarg_pending, lcBlocksFold_pending]

theorem lcUsagePhase_pending (c : AIChunk) (st : LCStreamState) :
    (lcUsagePhase c st).pending = st.pending := by
  unfold lcUsagePhase
  split <;> rfl

/-- The fragments contributed by one chunk. -/
def lcChunkFrags : LCChunk → List ToolCallChunk
  | .ai c => c.toolCallChunks
  | .nonAI => []

theorem lcProcessChunk_pending (st : LCStreamState) (ch : LCChunk) :
    (lcProcessChunk st ch).pending =
      (lcChunkFrags ch).foldl
        (fun pd tc => updatePending pd (tc.index.getD 0) tc) st.pending := by
  cases ch with
  | nonAI => rfl
  | ai c =>
    show (lcUsagePhase c (lcToolPhase c (lcContentPhase c st))).pending = _
    rw [lcUsagePhase_pending]
    show (c.toolCallChunks.foldl
      (fun pd tc => updatePending pd (tc.index.getD 0) tc)
      (lcContentPhase c st).pending) = _
    rw [lcContentPhase_pending]
    rfl

theorem lcFoldChunks_pending :
    ∀ (chunks : List LCChunk) (st : LCStreamState),
      (chunks.foldl lcProcessChunk st).pending =
        (lcFragments chunks).foldl
          (fun pd tc => updatePending pd (tc.index.getD 0) tc) st.pending := by
  intro chunks
  induction chunks with
  | nil => intro st; rfl
  | cons ch rest ih =>
    intro st
    rw [List.foldl_cons, ih, lcProcessChunk_pending]
    rw [show lcFragments (ch :: rest) = lcChunkFrags ch ++ lcFragments rest from by
      cases ch <;> simp [lcFragments, lcChunkFrags]]
    rw [List.foldl_append]

theorem lcFold_pending (chunks : List LCChunk) :
    (lcFold chunks).pending =
      (lcFragments chunks).foldl
        (fun pd tc => updatePending pd (tc.index.getD 0) tc) [] :=
  lcFoldChunks_pending chunks lcInitState

/-! # Lemmas: distinct keys, sorting, emission -/

theorem updatePending_keys_sub (pd : List (Nat × LCEntry)) (idx : Nat)
    (tc : ToolCallChunk) :
    ∀ k ∈ (updatePending pd idx tc).map Prod.fst,
      k = idx ∨ k ∈ pd.map Prod.fst := by
  induction pd with
  | nil =>
    intro k hk
    simp [updatePending] at hk
    exact Or.inl hk
  | cons p rest ih =>
    obtain ⟨k0, e⟩ := p
    intro k hk
    by_cases h : k0 = idx
    · rw [show updatePending ((k0, e) :: rest) idx tc =
          (k0, updateEntry e tc) :: rest from by simp [updatePending, h]] at hk
      simp only [List.map_cons, List.mem_cons] at hk
      rcases hk with hk | hk
      · exact Or.inr (by simp [hk])
      · exact Or.inr (by simp [hk])
    · rw [show updatePending ((k0, e) :: rest) idx tc =
          (k0, e) :: updatePending rest idx tc from by simp [updatePending, h]] at hk
      simp only [List.map_cons, List.mem_cons] at hk
      rcases hk with hk | hk
      · exact Or.inr (by simp [hk])
      · rcases ih k hk with hk2 | hk2
        · exact Or.inl hk2
        · exact Or.inr (by simp [hk2])

theorem updatePending_keys_nodup (pd : List (Nat × LCEntry)) (idx : Nat)
    (tc : ToolCallChunk) (h : (pd.map Prod.fst).Nodup) :
    ((updatePending pd idx tc).map Prod.fst).Nodup := by
  induction pd with
  | nil => simp [updatePending]
  | cons p rest ih =>
    obtain ⟨k0, e⟩ := p
    simp only [List.map_cons, List.nodup_cons] at h
    by_cases hk : k0 = idx
    · rw [show updatePending ((k0, e) :: rest) idx tc =
          (k0, updateEntry e tc) :: rest from by simp [updatePending, hk]]
      simp only [List.map_cons, List.nodup_cons]
      exact ⟨h.1, h.2⟩
    · rw [show updatePending ((k0, e) :: rest) idx tc =
          (k0, e) :: updatePending rest idx tc from by simp [updatePending, hk]]
      simp only [List.map_cons, List.nodup_cons]
      refine ⟨?_, ih h.2⟩
      intro hmem
      rcases updatePending_keys_sub rest idx tc k0 hmem with h1 | h1
      · exact hk h1
      · exact h.1 h1

theorem foldFrags_keys_nodup (fs : List ToolCallChunk) :
    ∀ pd : List (Nat × LCEntry), (pd.map Prod.fst).Nodup →
      ((fs.foldl (fun pd tc => updatePending pd (tc.index.getD 0) tc) pd).map
        Prod.fst).Nodup := by
  induction fs with
  | nil => intro pd h; exact h
  | cons tc rest ih =>
    intro pd h
    exact ih _ (updatePending_keys_nodup pd _ tc h)

theorem lookupPending_of_mem (pd : List (Nat × LCEntry))
    (h : (pd.map Prod.fst).Nodup) (i : Nat) (e : LCEntry)
    (hmem : (i, e) ∈ pd) : lookupPending pd i = some e := by
  induction pd with
  | nil => simp at hmem
  | cons p rest ih =>
    obtain ⟨k0, e0⟩ := p
    simp only [List.map_cons, List.nodup_cons] at h
    rcases List.mem_cons.mp hmem with hmem | hmem
    · cases hmem
      simp [lookupPending]
    · have hne : k0 ≠ i := by
        intro hh
        subst hh
        exact h.1 (by simpa using List.mem_map_of_mem Prod.fst hmem)
      simp only [lookupPending, if_neg hne]
      exact ih h.2 hmem

theorem mem_insertByKey (p q : Nat × LCEntry) :
    ∀ l, q ∈ insertByKey p l ↔ q = p ∨ q ∈ l := by
  intro l
  induction l with
  | nil => simp [insertByKey]
  | cons r rest ih =>
    simp only [insertByKey]
    split
    · exact List.mem_cons
    · simp only [List.mem_cons, ih]
      tauto

theorem mem_sortByKey (q : Nat × LCEntry) (l : List (Nat × LCEntry)) :
    q ∈ sortByKey l ↔ q ∈ l := by
  induction l with
  | nil => simp [sortByKey]
  | cons r rest ih =>
    show q ∈ insertByKey r (sortByKey rest) ↔ _
    rw [mem_insertByKey]
    simp only [List.mem_cons]
    rw [ih]

/-- Every emitted tool-call delta is rendered from an entry of the sorted
pending table: decoded accumulated name, accumulated args (or the empty
JSON object), and the accumulated id when non-empty, else a fresh id. -/
theorem lcEmitToolCalls_src (fresh : Nat → String) :
    ∀ (l : List (Nat × LCEntry)) (k : Nat) (d : GenerateResponse),
      d ∈ lcEmitToolCalls fresh k l →
      ∃ ie ∈ l, ∃ cid,
        d = ⟨.toolCall cid (tool_name_from_api (Prod.snd ie).name)
          (if (Prod.snd ie).args ≠ "" then (Prod.snd ie).args
           else "\x7b\x7d"), false⟩ ∧
        (((Prod.snd ie).id ≠ "" ∧ cid = (Prod.snd ie).id) ∨
         ((Prod.snd ie).id = "" ∧ ∃ j, cid = fresh j)) := by
  intro l
  induction l with
  | nil => intro k d hd; simp [lcEmitToolCalls] at hd
  | cons p rest ih =>
    intro k d hd
    unfold lcEmitToolCalls at hd
    by_cases hid : p.2.id ≠ ""
    · rw [if_pos hid] at hd
      rcases List.mem_cons.mp hd with hd | hd
      · exact ⟨p, List.mem_cons_self _ _, p.2.id, hd, Or.inl ⟨hid, rfl⟩⟩
      · obtain ⟨ie, hie, cid, hde, hcid⟩ := ih k d hd
        exact ⟨ie, List.mem_cons_of_mem _ hie, cid, hde, hcid⟩
    · rw [if_neg hid] at hd
      have hid2 : p.2.id = "" := by
        by_contra hc
        exact hid hc
      rcases List.mem_cons.mp hd with hd | hd
      · exact ⟨p, List.mem_cons_self _ _, fresh k, hd, Or.inr ⟨hid2, k, rfl⟩⟩
      · obtain ⟨ie, hie, cid, hde, hcid⟩ := ih (k + 1) d hd
        exact ⟨ie, List.mem_cons_of_mem _ hie, cid, hde, hcid⟩

/-! # Lemmas: origin of emitted tool-call deltas (google) -/

theorem gPartsFold_toolCall_origin (fresh : Nat → String) (parts : List GPart) :
    ∀ (st : GStreamState) (d : GenerateResponse) (cid n a : String),
      d ∈ (parts.foldl (gProcessPart fresh) st).out →
      d.payload = .toolCall cid n a →
      d ∈ st.out ∨ ∃ fc, (∃ p ∈ parts, partEmitsFC p fc) ∧
        (∃ k, cid = fresh k) ∧ n = tool_name_from_api fc.name ∧
        a = gArgsString fc := by
  induction parts with
  | nil =>
    intro st d cid n a hd _
    exact Or.inl hd
  | cons p rest ih =>
    intro st d cid n a hd hp
    rw [List.foldl_cons] at hd
    rcases ih (gProcessPart fresh st p) d cid n a hd hp with hd' | ⟨fc, ⟨p', hp', hev⟩, hk, hn, ha⟩
    · unfold gProcessPart at hd'
      split at hd'
      · split at hd'
        · rcases List.mem_append.mp hd' with hd2 | hd2
          · exact Or.inl hd2
          · simp only [List.mem_singleton] at hd2
            rw [hd2] at hp
            simp at hp
        · exact Or.inl hd'
      · split at hd'
        · next fcOpt fc heq =>
          rcases List.mem_append.mp hd' with hd2 | hd2
          · exact Or.inl hd2
          · simp only [List.mem_singleton] at hd2
            rw [hd2] at hp
            simp only [Payload.toolCall.injEq] at hp
            have hth2 : p.thought = false := by
              cases hth3 : p.thought
              · rfl
              · exact absurd hth3 (by assumption)
            exact Or.inr ⟨fc, ⟨p, List.mem_cons_self _ _, hth2, heq⟩,
              ⟨st.freshCtr, hp.1.symm⟩, hp.2.1.symm, hp.2.2.symm⟩
        · split at hd'
          · rcases List.mem_append.mp hd' with hd2 | hd2
            · exact Or.inl hd2
            · simp only [List.mem_singleton] at hd2
              rw [hd2] at hp
              simp at hp
          · split at hd'
            · rcases List.mem_append.mp hd' with hd2 | hd2
              · exact Or.inl hd2
              · simp only [List.mem_singleton] at hd2
                rw [hd2] at hp
                simp at hp
            · split at hd'
              · rcases List.mem_append.mp hd' with hd2 | hd2
                · exact Or.inl hd2
                · simp only [List.mem_singleton] at hd2
                  rw [hd2] at hp
                  simp at hp
              · exact Or.inl hd'
    · exact Or.inr ⟨fc, ⟨p', List.mem_cons_of_mem _ hp', hev⟩, hk, hn, ha⟩

theorem gBufferUsage_out (st : GStreamState) (um : Option GUsageMeta) :
    (gBufferUsage st um).out = st.out := rfl

theorem gApplyGrounding_out (st : GStreamState)
    (g : Option GGroundingMetadata) : (gApplyGrounding st g).out = st.out := by
  unfold gApplyGrounding
  split <;> rfl

theorem gProcessChunk_toolCall_origin (fresh : Nat → String) (st : GStreamState)
    (ch : GChunk) (d : GenerateResponse) (cid n a : String)
    (hd : d ∈ (gProcessChunk fresh st ch).out)
    (hp : d.payload = .toolCall cid n a) :
    d ∈ st.out ∨ ∃ fc, chunkEmitsFC ch fc ∧
      (∃ k, cid = fresh k) ∧ n = tool_name_from_api fc.name ∧
      a = gArgsString fc := by
  unfold gProcessChunk at hd
  split at hd
  · rw [gBufferUsage_out] at hd
    exact Or.inl hd
  · next cand tail heq =>
    unfold gProcessCandidate at hd
    split at hd
    · rw [gBufferUsage_out, gApplyGrounding_out] at hd
      exact Or.inl hd
    · next parts heqc =>
      split at hd
      · rw [gBufferUsage_out, gApplyGrounding_out] at hd
        exact Or.inl hd
      · next hne =>
        rw [gBufferUsage_out] at hd
        rcases gPartsFold_toolCall_origin fresh parts
            (gApplyGrounding st cand.groundingMetadata) d cid n a hd hp with
          hd2 | ⟨fc, ⟨p, hpmem, hev⟩, hk, hn, ha⟩
        · rw [gApplyGrounding_out] at hd2
          exact Or.inl hd2
        · refine Or.inr ⟨fc, ⟨cand, by rw [heq]; rfl, parts, heqc, ?_, p, hpmem, hev⟩,
            hk, hn, ha⟩
          intro hnil
          rw [hnil] at hne
          exact hne rfl

theorem gFoldChunks_toolCall_origin (fresh : Nat → String) :
    ∀ (chunks : List GChunk) (st : GStreamState) (d : GenerateResponse)
      (cid n a : String),
      d ∈ (chunks.foldl (gProcessChunk fresh) st).out →
      d.payload = .toolCall cid n a →
      d ∈ st.out ∨ ∃ fc, streamHasFC chunks fc ∧
        (∃ k, cid = fresh k) ∧ n = tool_name_from_api fc.name ∧
        a = gArgsString fc := by
  intro chunks
  induction chunks with
  | nil =>
    intro st d cid n a hd _
    exact Or.inl hd
  | cons ch rest ih =>
    intro st d cid n a hd hp
    rw [List.foldl_cons] at hd
    rcases ih (gProcessChunk fresh st ch) d cid n a hd hp with
      hd' | ⟨fc, ⟨ch', hch', hev⟩, hk, hn, ha⟩
    · rcases gProcessChunk_toolCall_origin fresh st ch d cid n a hd' hp with
        hd2 | ⟨fc, hev, hk, hn, ha⟩
      · exact Or.inl hd2
      · exact Or.inr ⟨fc, ⟨ch, List.mem_cons_self _ _, hev⟩, hk, hn, ha⟩
    · exact Or.inr ⟨fc, ⟨ch', List.mem_cons_of_mem _ hch', hev⟩, hk, hn, ha⟩

/-- Every tool-call delta of a google attempt comes from a function-call part
of the upstream stream: synthesized fresh call id, decoded name, rendered
arguments. -/
theorem googleStreamRun_toolCall (fresh : Nat → String) (chunks : List GChunk)
    (timedOut : Bool) (rid : String) (ts : Nat) (d : GenerateResponse)
    (cid n a : String)
    (hd : d ∈ (googleStreamRun fresh chunks timedOut rid ts).deltas)
    (hp : d.payload = .toolCall cid n a) :
    ∃ fc, streamHasFC chunks fc ∧ (∃ k, cid = fresh k) ∧
      n = tool_name_from_api fc.name ∧ a = gArgsString fc := by
  have hbase : ∀ hd2 : d ∈ (gFold fresh chunks).out,
      ∃ fc, streamHasFC chunks fc ∧ (∃ k, cid = fresh k) ∧
        n = tool_name_from_api fc.name ∧ a = gArgsString fc := by
    intro hd2
    rcases gFoldChunks_toolCall_origin fresh chunks gInitState d cid n a hd2 hp with
      hd3 | hok
    · simp [gInitState] at hd3
    · exact hok
  cases timedOut with
  | true =>
    rw [googleStreamRun_timeout_eq] at hd
    exact hbase hd
  | false =>
    cases hc : (gFold fresh chunks).hasContent with
    | false =>
      rw [googleStreamRun_empty_eq fresh chunks rid ts hc] at hd
      exact hbase hd
    | true =>
      rw [googleStreamRun_completed_eq fresh chunks rid ts hc] at hd
      rcases List.mem_append.mp hd with hd | hd
      · rcases List.mem_append.mp hd with hd | hd
        · rcases List.mem_append.mp hd with hd | hd
          · exact hbase hd
          · cases hg : (gFold fresh chunks).lastGrounding with
            | none => rw [hg] at hd; simp [gGroundingSuffix] at hd
            | some gm =>
              rw [hg] at hd
              simp only [gGroundingSuffix, List.mem_singleton] at hd
              rw [hd] at hp
              simp at hp
        · cases hu : (gFold fresh chunks).lastUsage with
          | none => rw [hu] at hd; simp [gUsageSuffix] at hd
          | some u =>
            rw [hu] at hd
            simp only [gUsageSuffix, List.mem_singleton] at hd
            have := (gFold_inv fresh chunks).2.2.2 u hu
            rw [hd] at hp
            rw [hp] at this
            simp [Payload.isUsage] at this
      · simp only [List.mem_singleton] at hd
        rw [hd] at hp
        simp at hp

/-! # Lemmas: origin of emitted tool-call deltas (langchain) -/

/-- Every tool-call delta of a langchain attempt is the full accumulation of
the fragments addressed to one index: name is the decoded last non-empty
name fragment, args the concatenation of all non-empty args fragments (or
the empty JSON object), id the last non-empty id fragment or a fresh id. -/
theorem lcStreamRun_toolCall (fresh : Nat → String) (chunks : List LCChunk)
    (timedOut : Bool) (rid : String) (ts : Nat) (d : GenerateResponse)
    (cid n a : String)
    (hd : d ∈ (lcStreamRun fresh chunks timedOut rid ts).deltas)
    (hp : d.payload = .toolCall cid n a) :
    ∃ i, fragmentsFor chunks i ≠ [] ∧
      n = tool_name_from_api (specName (fragmentsFor chunks i)) ∧
      a = (if specArgs (fragmentsFor chunks i) ≠ "" then
             specArgs (fragmentsFor chunks i) else "\x7b\x7d") ∧
      ((specId (fragmentsFor chunks i) ≠ "" ∧ cid = specId (fragmentsFor chunks i)) ∨
       (specId (fragmentsFor chunks i) = "" ∧ ∃ k, cid = fresh k)) := by
  have hout : ∀ hd2 : d ∈ (lcFold chunks).out, False := by
    intro hd2
    have := ((lcFold_inv chunks).1 d hd2).2.2
    rw [hp] at this
    simp [Payload.isToolCall] at this
  have hemit : d ∈ lcEmitToolCalls fresh 0 (sortByKey (lcFold chunks).pending) →
      ∃ i, fragmentsFor chunks i ≠ [] ∧
        n = tool_name_from_api (specName (fragmentsFor chunks i)) ∧
        a = (if specArgs (fragmentsFor chunks i) ≠ "" then
               specArgs (fragmentsFor chunks i) else "\x7b\x7d") ∧
        ((specId (fragmentsFor chunks i) ≠ "" ∧
            cid = specId (fragmentsFor chunks i)) ∨
         (specId (fragmentsFor chunks i) = "" ∧ ∃ k, cid = fresh k)) := by
    intro hd2
    obtain ⟨ie, hie, cid', hde, hcid⟩ := lcEmitToolCalls_src fresh _ 0 d hd2
    obtain ⟨i, e⟩ := ie
    have hmem : (i, e) ∈ (lcFold chunks).pending :=
      (mem_sortByKey (i, e) (lcFold chunks).pending).mp hie
    have hnodup : (((lcFold chunks).pending).map Prod.fst).Nodup := by
      rw [lcFold_pending]
      exact foldFrags_keys_nodup (lcFragments chunks) [] (by simp)
    have hlook : lookupPending (lcFold chunks).pending i = some e :=
      lookupPending_of_mem _ hnodup i e hmem
    rw [lcFold_pending, lookupPending_foldFrags] at hlook
    by_cases hfil : (lcFragments chunks).filter (fun tc => tc.index.getD 0 == i) = []
    · rw [if_pos hfil] at hlook
      simp [lookupPending] at hlook
    · rw [if_neg hfil] at hlook
      simp only [lookupPending, Option.getD_none, Option.some.injEq] at hlook
      have he : e = ⟨specId (fragmentsFor chunks i), specName (fragmentsFor chunks i),
          specArgs (fragmentsFor chunks i)⟩ := by
        rw [← hlook, foldl_updateEntry]
        unfold specId specName specArgs fragmentsFor
        rw [str_empty_append]
      rw [hde] at hp
      simp only [Payload.toolCall.injEq] at hp
      obtain ⟨hcid2, hn2, ha2⟩ := hp
      refine ⟨i, fun hh => hfil (by
        have : fragmentsFor chunks i =
            (lcFragments chunks).filter (fun tc => tc.index.getD 0 == i) := rfl
        rw [← this]; exact hh), ?_, ?_, ?_⟩
      · rw [← hn2, he]
      · rw [← ha2, he]
      · rw [← hcid2]
        rcases hcid with ⟨hne, hcc⟩ | ⟨hze, j, hcc⟩
        · left
          rw [he] at hne hcc
          exact ⟨hne, hcc⟩
        · right
          rw [he] at hze
          exact ⟨hze, j, hcc⟩
  cases timedOut with
  | true =>
    rw [lcStreamRun_timeout_eq] at hd
    exact absurd hd (fun hh => hout hh)
  | false =>
    cases hcond : ((lcFold chunks).hasContent
        || !(sortByKey (lcFold chunks).pending).isEmpty) with
    | false =>
      have h1 : (lcFold chunks).hasContent = false := by
        cases hx : (lcFold chunks).hasContent
        · rfl
        · rw [hx] at hcond; simp at hcond
      have h2 : (sortByKey (lcFold chunks).pending).isEmpty = true := by
        cases hx : (sortByKey (lcFold chunks).pending).isEmpty
        · rw [hx] at hcond; simp [h1] at hcond
        · rfl
      rw [lcStreamRun_empty_eq fresh chunks rid ts h1 h2] at hd
      rcases List.mem_append.mp hd with hd | hd
      · exact absurd hd (fun hh => hout hh)
      · exact hemit hd
    | true =>
      rw [lcStreamRun_completed_eq fresh chunks rid ts hcond] at hd
      rcases List.mem_append.mp hd with hd | hd
      · rcases List.mem_append.mp hd with hd | hd
        · rcases List.mem_append.mp hd with hd | hd
          · exact absurd hd (fun hh => hout hh)
          · exact hemit hd
        · unfold lcUsageSuffix at hd
          by_cases hc2 : (lcFold chunks).accInput ≠ 0 ∨ (lcFold chunks).accOutput ≠ 0
          · rw [if_pos (by simpa using hc2)] at hd
            simp only [List.mem_singleton] at hd
            rw [hd] at hp
            simp at hp
          · rw [if_neg (by simpa using hc2)] at hd
            simp at hd
      · simp only [List.mem_singleton] at hd
        rw [hd] at hp
        simp at hp

/-! # Claim C7 -/

/-- C7, counterexample.  A langchain upstream stream whose only tool-call
fragment carries an id and args but never a name is delivered as a
`tool_call` delta whose name is the empty string, contradicting the claim
that every delivered tool call has a non-empty canonical name.  (The
arguments are likewise forwarded as accumulated, without JSON validation.) -/
theorem c7_tool_call_assembly_cex :
    lcStreamRun fresh8 [lcNoNameChunk] false "r" 180 =
      ⟨[⟨.toolCall "c1" "" "\x7b\x7d", false⟩, ⟨.none, true⟩], .completed⟩ ∧
    (⟨.toolCall "c1" "" "\x7b\x7d", false⟩ : GenerateResponse) ∈
      (lcStreamRun fresh8 [lcNoNameChunk] false "r" 180).deltas :=
  ⟨rfl, by decide⟩

/-- C7, amended.  No tool-call delta ever carries a fragment: every outbound
`tool_call` delta is the complete assembly of its upstream call.  For the
google-native adapter it is built from one upstream function-call part — the
name is the decoded upstream name (non-empty whenever the upstream name is),
and the arguments are always the JSON rendering of an object (always
syntactically valid JSON, `"{}"` when the call has no arguments).  For the
langchain adapter it is the full accumulation over all fragments of its
index — the name is the decoded last non-empty name fragment (non-empty only
when some fragment carried a name), and the arguments are the concatenation
of all non-empty args fragments (`"{}"` when there are none), forwarded
without JSON validation. -/
theorem c7_tool_call_assembly_amended :
    (∀ (fresh : Nat → String) (chunks : List GChunk) (timedOut : Bool)
       (rid : String) (ts : Nat) (d : GenerateResponse) (cid n a : String),
      d ∈ (googleStreamRun fresh chunks timedOut rid ts).deltas →
      d.payload = .toolCall cid n a →
      ∃ fc, streamHasFC chunks fc ∧ n = tool_name_from_api fc.name ∧
        (fc.name ≠ "" → n ≠ "") ∧
        ∃ fields, a = Json.render (Json.obj fields)) ∧
    (∀ (fresh : Nat → String) (chunks : List LCChunk) (timedOut : Bool)
       (rid : String) (ts : Nat) (d : GenerateResponse) (cid n a : String),
      d ∈ (lcStreamRun fresh chunks timedOut rid ts).deltas →
      d.payload = .toolCall cid n a →
      ∃ i, fragmentsFor chunks i ≠ [] ∧
        n = tool_name_from_api (specName (fragmentsFor chunks i)) ∧
        (specName (fragmentsFor chunks i) ≠ "" → n ≠ "") ∧
        a = (if specArgs (fragmentsFor chunks i) ≠ "" then
               specArgs (fragmentsFor chunks i) else "\x7b\x7d")) := by
  constructor
  · intro fresh chunks timedOut rid ts d cid n a hd hp
    obtain ⟨fc, hstream, _, hn, ha⟩ :=
      googleStreamRun_toolCall fresh chunks timedOut rid ts d cid n a hd hp
    refine ⟨fc, hstream, hn, ?_, ?_⟩
    · intro hne
      rw [hn]
      exact tool_name_from_api_ne_empty hne
    · unfold gArgsString at ha
      by_cases hempty : fc.args.isEmpty
      · rw [if_pos hempty] at ha
        exact ⟨[], ha⟩
      · rw [if_neg hempty] at ha
        exact ⟨fc.args, ha⟩
  · intro fresh chunks timedOut rid ts d cid n a hd hp
    obtain ⟨i, hne, hn, ha, _⟩ :=
      lcStreamRun_toolCall fresh chunks timedOut rid ts d cid n a hd hp
    refine ⟨i, hne, hn, ?_, ha⟩
    intro hnm
    rw [hn]
    exact tool_name_from_api_ne_empty hnm

/-- C7 witness: the amended statement at a complete google function call and
at a langchain fragment stream. -/
theorem c7_tool_call_assembly_witness :
    (∃ fc, streamHasFC [gFcChunk] fc ∧
      "server.read" = tool_name_from_api fc.name ∧
      (fc.name ≠ "" → ("server.read" : String) ≠ "") ∧
      ∃ fields, "\x7b\"path\": \"/tmp\"\x7d" = Json.render (Json.obj fields)) ∧
    (∃ i, fragmentsFor [lcNoNameChunk] i ≠ [] ∧
      ("" : String) = tool_name_from_api (specName (fragmentsFor [lcNoNameChunk] i)) ∧
      (specName (fragmentsFor [lcNoNameChunk] i) ≠ "" → ("" : String) ≠ "") ∧
      ("\x7b\x7d" : String) = (if specArgs (fragmentsFor [lcNoNameChunk] i) ≠ "" then
        specArgs (fragmentsFor [lcNoNameChunk] i) else "\x7b\x7d")) :=
  ⟨c7_tool_call_assembly_amended.1 fresh8 [gFcChunk] false "r" 180
      ⟨.toolCall "aaaa0000" "server.read" "\x7b\"path\": \"/tmp\"\x7d", false⟩
      "aaaa0000" "server.read" "\x7b\"path\": \"/tmp\"\x7d" (by decide) rfl,
   c7_tool_call_assembly_amended.2 fresh8 [lcNoNameChunk] false "r" 180
      ⟨.toolCall "c1" "" "\x7b\x7d", false⟩ "c1" "" "\x7b\x7d" (by decide) rfl⟩

/-! # Claim C10 -/

/-- C10.  Every emitted `tool_call` delta carries a non-empty `call_id`
(given that the uuid supply yields 8-character ids): the google-native
adapter always uses a freshly drawn id from the supply — never an
upstream-provided call id — while the langchain adapter uses the accumulated
upstream id when it is non-empty and otherwise draws a fresh 8-character
id. -/
theorem c10_call_ids (fresh : Nat → String)
    (hfresh : ∀ k, (fresh k).length = 8) :
    (∀ (chunks : List GChunk) (timedOut : Bool) (rid : String) (ts : Nat)
       (d : GenerateResponse) (cid n a : String),
      d ∈ (googleStreamRun fresh chunks timedOut rid ts).deltas →
      d.payload = .toolCall cid n a →
      (∃ k, cid = fresh k) ∧ cid.length = 8 ∧ cid ≠ "") ∧
    (∀ (chunks : List LCChunk) (timedOut : Bool) (rid : String) (ts : Nat)
       (d : GenerateResponse) (cid n a : String),
      d ∈ (lcStreamRun fresh chunks timedOut rid ts).deltas →
      d.payload = .toolCall cid n a →
      cid ≠ "" ∧
        ((∃ i, specId (fragmentsFor chunks i) ≠ "" ∧
            cid = specId (fragmentsFor chunks i)) ∨
         (∃ k, cid = fresh k ∧ cid.length = 8))) := by
  constructor
  · intro chunks timedOut rid ts d cid n a hd hp
    obtain ⟨fc, _, ⟨k, hk⟩, _, _⟩ :=
      googleStreamRun_toolCall fresh chunks timedOut rid ts d cid n a hd hp
    have hlen : cid.length = 8 := by rw [hk]; exact hfresh k
    exact ⟨⟨k, hk⟩, hlen, string_length8_ne_empty hlen⟩
  · intro chunks timedOut rid ts d cid n a hd hp
    obtain ⟨i, _, _, _, hcid⟩ :=
      lcStreamRun_toolCall fresh chunks timedOut rid ts d cid n a hd hp
    rcases hcid with ⟨hne, hcc⟩ | ⟨_, k, hcc⟩
    · refine ⟨?_, Or.inl ⟨i, hne, hcc⟩⟩
      rw [hcc]
      exact hne
    · have hlen : cid.length = 8 := by rw [hcc]; exact hfresh k
      exact ⟨string_length8_ne_empty hlen, Or.inr ⟨k, hcc, hlen⟩⟩

/-- C10 witness: a google tool call gets a fresh 8-character id even though
the upstream carried one, and a langchain accumulated id is forwarded. -/
theorem c10_call_ids_witness :
    ((∃ k, ("aaaa0000" : String) = fresh8 k) ∧
      ("aaaa0000" : String).length = 8 ∧ ("aaaa0000" : String) ≠ "") ∧
    (("c1" : String) ≠ "" ∧
      ((∃ i, specId (fragmentsFor [lcNoNameChunk] i) ≠ "" ∧
          ("c1" : String) = specId (fragmentsFor [lcNoNameChunk] i)) ∨
       (∃ k, ("c1" : String) = fresh8 k ∧ ("c1" : String).length = 8))) := by
  have hfresh : ∀ k, (fresh8 k).length = 8 := by
    intro k
    unfold fresh8
    split <;> rfl
  have h := c10_call_ids fresh8 hfresh
  exact ⟨h.1 [gFcChunk] false "r" 180
      ⟨.toolCall "aaaa0000" "server.read" "\x7b\"path\": \"/tmp\"\x7d", false⟩
      "aaaa0000" "server.read" "\x7b\"path\": \"/tmp\"\x7d" (by decide) rfl,
    h.2 [lcNoNameChunk] false "r" 180
      ⟨.toolCall "c1" "" "\x7b\x7d", false⟩ "c1" "" "\x7b\x7d" (by decide) rfl⟩

end LlmService
